import Mathlib

/-!
A shallow embedding of `src/indexed_list.py` (the `indexed-list` Python
package): an ordered sequence that keeps secondary key indexes
(`UniqueIndex` / `MultiIndex`) synchronized with its contents, plus the
`Table` layer.

Python dicts are modelled as insertion-ordered association lists with
distinct keys; Python lists as `List`; a method that can raise is modelled
with `Option`/`Except`/an error component.  Items and keys are arbitrary
types with decidable equality; the key-extraction method `process_item`
(which either returns a key or raises, e.g. `KeyError` on a missing field)
is modelled as a function `Item → Option Key`.
-/

namespace IndexedListModel

/-- The errors the modelled code can raise.
`uniqueness` = the `ValueError('Value ... already in index ...')` of
`UniqueIndex.prepare_add`; `missingField` = `KeyError` raised by
`process_item` on a missing field; `keyNotFound` = `KeyError` from a dict
lookup / `del` on an absent key; `notInList` = `ValueError` from
`list.index` / `list.remove` on an absent element; `outOfRange` =
`IndexError` on a bad position. -/
inductive Err where
  | uniqueness
  | missingField
  | keyNotFound
  | notInList
  | outOfRange
deriving DecidableEq, Repr

variable {Key Item V α : Type}

/-! ### Python dict, modelled as an insertion-ordered association list -/

/-- `d[k]` as an `Option` (Python raises `KeyError` on `none`). -/
def dLookup [DecidableEq Key] : List (Key × V) → Key → Option V
  | [], _ => none
  | (k', v) :: rest, k => if k' = k then some v else dLookup rest k

/-- `d[k] = v`: overwrite in place if the key is present, else append
(Python dicts preserve insertion order and keep the key's position on
overwrite). -/
def dSet [DecidableEq Key] : List (Key × V) → Key → V → List (Key × V)
  | [], k, v => [(k, v)]
  | (k', v') :: rest, k, v =>
      if k' = k then (k, v) :: rest else (k', v') :: dSet rest k v

/-- `del d[k]` (caller checks presence; on an association list with
distinct keys this removes the unique entry). -/
def dDel [DecidableEq Key] : List (Key × V) → Key → List (Key × V)
  | [], _ => []
  | (k', v') :: rest, k => if k' = k then rest else (k', v') :: dDel rest k

/-! ### Python list primitives -/

/-- `l[j]` for an already-normalized non-negative position. -/
def getAt : List α → Nat → Option α
  | [], _ => none
  | a :: _, 0 => some a
  | _ :: l, n + 1 => getAt l n

/-- `l.insert(j, v)` for a non-negative position (Python clamps a
too-large position to the end). -/
def insertAt : Nat → α → List α → List α
  | 0, v, l => v :: l
  | _ + 1, v, [] => [v]
  | n + 1, v, a :: l => a :: insertAt n v l

/-- `l[j] = v` for an in-range normalized position. -/
def setAt : Nat → α → List α → List α
  | _, _, [] => []
  | 0, v, _ :: l => v :: l
  | n + 1, v, a :: l => a :: setAt n v l

/-- `del l[j]` for an in-range normalized position. -/
def removeAt : Nat → List α → List α
  | _, [] => []
  | 0, _ :: l => l
  | n + 1, a :: l => a :: removeAt n l

/-- `l.index(x)`: position of the first element equal to `x`
(`none` = Python raises `ValueError`). -/
def listIndexOf [DecidableEq α] : List α → α → Option Nat
  | [], _ => none
  | a :: rest, x => if a = x then some 0 else (listIndexOf rest x).map (· + 1)

/-- `l.remove(x)`: drop the first element equal to `x`
(`none` = Python raises `ValueError`). -/
def listRemoveFirst [DecidableEq α] : List α → α → Option (List α)
  | [], _ => none
  | a :: rest, x =>
      if a = x then some rest else (listRemoveFirst rest x).map (a :: ·)

/-- Occurrence count (used to state the multi-index invariant). -/
def cnt [DecidableEq α] (x : α) : List α → Nat
  | [] => 0
  | a :: l => (if a = x then 1 else 0) + cnt x l

/-- Python index normalization for `l[i]` / `l[i] = v` / `del l[i]` with a
possibly negative `i`: `none` means `IndexError`. -/
def pyNorm (n : Nat) (i : Int) : Option Nat :=
  let j : Int := if i < 0 then i + n else i
  if 0 ≤ j ∧ j < (n : Int) then some j.toNat else none

/-- Python position normalization for `l.insert(i, v)`: negative counts
from the end, then the result is clamped into `[0, n]`. -/
def pyInsertPos (n : Nat) (i : Int) : Nat :=
  if i < 0 then (max (i + n) 0).toNat else min i.toNat n

/-! ### Index runtime state and operations (`Index` subclasses) -/

/-- The per-instance key map of one bound index: `UniqueIndex` maps a key
to a single item, `MultiIndex` to an insertion-ordered list of items.  The
constructor records the declared uniqueness policy of the index. -/
inductive IdxState (Key Item : Type) where
  | uniq (d : List (Key × Item))
  | multi (d : List (Key × List Item))

/-- One bound index: the key-extraction rule `process_item` (modelled as a
function returning `none` when extraction raises) together with its
runtime key map `_dict`. -/
structure Entry (Key Item : Type) where
  key : Item → Option Key
  st : IdxState Key Item

/-- `prepare_add(item, skip)`.  `MultiIndex.prepare_add` just returns
`True`.  `UniqueIndex.prepare_add` extracts the key; if it is already in
`_dict` it compares `self._list.index(stored) == skip` (with `skip` the
raw, possibly negative position or `None`) and raises `ValueError` unless
they are equal. -/
def prepareAdd [DecidableEq Key] [DecidableEq Item] (list : List Item)
    (e : Entry Key Item) (item : Item) (skip : Option Int) : Option Err :=
  match e.st with
  | .multi _ => none
  | .uniq d =>
    match e.key item with
    | none => some .missingField
    | some k =>
      match dLookup d k with
      | none => none
      | some stored =>
        match listIndexOf list stored with
        | none => some .notInList
        | some p => if skip = some (p : Int) then none else some .uniqueness

/-- `add(item)`: `UniqueIndex.add` does `self._dict[key] = item`;
`MultiIndex.add` does `setdefault(key, []).append(item)`. -/
def idxAdd [DecidableEq Key] (e : Entry Key Item) (item : Item) :
    Except Err (Entry Key Item) :=
  match e.key item with
  | none => .error .missingField
  | some k =>
    match e.st with
    | .uniq d => .ok ⟨e.key, .uniq (dSet d k item)⟩
    | .multi d =>
        .ok ⟨e.key, .multi (dSet d k ((dLookup d k).getD [] ++ [item]))⟩

/-- `remove(item)`: `UniqueIndex.remove` does `del self._dict[key]`;
`MultiIndex.remove` does `self._dict[key].remove(item)`. -/
def idxRemove [DecidableEq Key] [DecidableEq Item] (e : Entry Key Item)
    (item : Item) : Except Err (Entry Key Item) :=
  match e.key item with
  | none => .error .missingField
  | some k =>
    match e.st with
    | .uniq d =>
      match dLookup d k with
      | none => .error .keyNotFound
      | some _ => .ok ⟨e.key, .uniq (dDel d k)⟩
    | .multi d =>
      match dLookup d k with
      | none => .error .keyNotFound
      | some l =>
        match listRemoveFirst l item with
        | none => .error .notInList
        | some l' => .ok ⟨e.key, .multi (dSet d k l')⟩

/-! ### The `IndexedList` container -/

/-- An `IndexedList` instance: the sequence `_list` together with its
bound indexes, in declaration order. -/
structure IListState (Key Item : Type) where
  list : List Item
  idxs : List (Entry Key Item)

/-- `_check(value, skip)`: run `prepare_add` on every index in order and
surface the first error. -/
def checkAll [DecidableEq Key] [DecidableEq Item]
    (entries : List (Entry Key Item)) (list : List Item) (v : Item)
    (skip : Option Int) : Option Err :=
  match entries with
  | [] => none
  | e :: rest =>
    match prepareAdd list e v skip with
    | some err => some err
    | none => checkAll rest list v skip

/-- `_add_to_indexes(value)`: mutate each index in order; an exception
leaves the already-processed indexes mutated and the rest untouched. -/
def addAll [DecidableEq Key] (entries : List (Entry Key Item)) (v : Item) :
    List (Entry Key Item) × Option Err :=
  match entries with
  | [] => ([], none)
  | e :: rest =>
    match idxAdd e v with
    | .error err => (e :: rest, some err)
    | .ok e' =>
      match addAll rest v with
      | (rest', r) => (e' :: rest', r)

/-- `_remove_from_indexes(value)`: mutate each index in order; an
exception leaves the already-processed indexes mutated. -/
def removeAll [DecidableEq Key] [DecidableEq Item]
    (entries : List (Entry Key Item)) (v : Item) :
    List (Entry Key Item) × Option Err :=
  match entries with
  | [] => ([], none)
  | e :: rest =>
    match idxRemove e v with
    | .error err => (e :: rest, some err)
    | .ok e' =>
      match removeAll rest v with
      | (rest', r) => (e' :: rest', r)

/-- `insert(i, value)`: `_check(value)` (skip `None`), then
`_add_to_indexes(value)`, then `self._list.insert(i, value)` which never
raises for any integer `i`.  The returned state is the post-state even on
failure (a mid-loop exception leaves earlier indexes mutated). -/
def stInsert [DecidableEq Key] [DecidableEq Item] (s : IListState Key Item)
    (i : Int) (v : Item) : IListState Key Item × Option Err :=
  match checkAll s.idxs s.list v none with
  | some err => (s, some err)
  | none =>
    match addAll s.idxs v with
    | (idxs', some err) => (⟨s.list, idxs'⟩, some err)
    | (idxs', none) =>
        (⟨insertAt (pyInsertPos s.list.length i) v s.list, idxs'⟩, none)

/-- `append(value)` (from `MutableSequence`): `insert(len(self), value)`. -/
def stAppend [DecidableEq Key] [DecidableEq Item] (s : IListState Key Item)
    (v : Item) : IListState Key Item × Option Err :=
  stInsert s (s.list.length : Int) v

/-- `__setitem__(i, value)`: `_check(value, skip=i)` first, then the
bounds check / `self._list[i]` (both `IndexError` cases collapse to
`outOfRange`), then `_remove_from_indexes(old)`, `_add_to_indexes(value)`
and finally `self._list[i] = value`. -/
def stSet [DecidableEq Key] [DecidableEq Item] (s : IListState Key Item)
    (i : Int) (v : Item) : IListState Key Item × Option Err :=
  match checkAll s.idxs s.list v (some i) with
  | some err => (s, some err)
  | none =>
    match pyNorm s.list.length i with
    | none => (s, some .outOfRange)
    | some j =>
      match getAt s.list j with
      | none => (s, some .outOfRange)
      | some old =>
        match removeAll s.idxs old with
        | (idxs', some err) => (⟨s.list, idxs'⟩, some err)
        | (idxs', none) =>
          match addAll idxs' v with
          | (idxs'', some err) => (⟨s.list, idxs''⟩, some err)
          | (idxs'', none) => (⟨setAt j v s.list, idxs''⟩, none)

/-- `__delitem__(i)`: `self._remove_from_indexes(self._list[i])` (the
subscript raises `IndexError` first when out of range), then
`del self._list[i]`. -/
def stDel [DecidableEq Key] [DecidableEq Item] (s : IListState Key Item)
    (i : Int) : IListState Key Item × Option Err :=
  match pyNorm s.list.length i with
  | none => (s, some .outOfRange)
  | some j =>
    match getAt s.list j with
    | none => (s, some .outOfRange)
    | some old =>
      match removeAll s.idxs old with
      | (idxs', some err) => (⟨s.list, idxs'⟩, some err)
      | (idxs', none) => (⟨removeAt j s.list, idxs'⟩, none)

/-! ### `BoundIndex` read operations -/

/-- A lookup result: the item itself for a unique index, the stored list
for a multi index. -/
inductive LookupResult (Key Item : Type) where
  | one (it : Item)
  | many (l : List Item)
deriving DecidableEq

/-- `BoundIndex.__getitem__(key)`: `return self._dict[key]` — the raw
dict value, with `KeyError` on an absent key for *both* index kinds;
`process_result` is never invoked on this path. -/
def boundGet [DecidableEq Key] (e : Entry Key Item) (k : Key) :
    Except Err (LookupResult Key Item) :=
  match e.st with
  | .uniq d =>
    match dLookup d k with
    | none => .error .keyNotFound
    | some it => .ok (.one it)
  | .multi d =>
    match dLookup d k with
    | none => .error .keyNotFound
    | some l => .ok (.many l)

/-- `BoundIndex.__len__`: `len(self._dict)`. -/
def boundLen (e : Entry Key Item) : Nat :=
  match e.st with
  | .uniq d => d.length
  | .multi d => d.length

/-- `BoundIndex.__iter__`: the dict's keys in insertion order. -/
def boundKeys (e : Entry Key Item) : List Key :=
  match e.st with
  | .uniq d => d.map Prod.fst
  | .multi d => d.map Prod.fst

/-! ### Invariants -/

/-- Invariant of one unique index against the container's sequence:
every item of the sequence has a key and is the value its key maps to;
every dict entry is keyed by its own item's key and its item is in the
sequence; keys are distinct (a dict); and with a unique index present the
sequence holds no duplicates. -/
def entryUniqInv [DecidableEq Key] (list : List Item)
    (key : Item → Option Key) (d : List (Key × Item)) : Prop :=
  (∀ it ∈ list, ∃ k, key it = some k ∧ dLookup d k = some it)
  ∧ (∀ p ∈ d, key p.2 = some p.1 ∧ p.2 ∈ list)
  ∧ (d.map Prod.fst).Nodup
  ∧ list.Nodup

/-- Invariant of one multi index: every sequence item has a key; every
bucket element is keyed by its bucket's key; each item occurs in the
bucket of its own key exactly as often as in the sequence; keys are
distinct. -/
def entryMultiInv [DecidableEq Key] [DecidableEq Item] (list : List Item)
    (key : Item → Option Key) (d : List (Key × List Item)) : Prop :=
  (∀ it ∈ list, (key it).isSome)
  ∧ (∀ p ∈ d, ∀ it ∈ p.2, key it = some p.1)
  ∧ (∀ it k, key it = some k → cnt it ((dLookup d k).getD []) = cnt it list)
  ∧ (d.map Prod.fst).Nodup

/-- The invariant of one bound index. -/
def entryInv [DecidableEq Key] [DecidableEq Item] (list : List Item)
    (e : Entry Key Item) : Prop :=
  match e.st with
  | .uniq d => entryUniqInv list e.key d
  | .multi d => entryMultiInv list e.key d

/-- The container invariant: every bound index is consistent with the
sequence. -/
def Inv [DecidableEq Key] [DecidableEq Item] (s : IListState Key Item) : Prop :=
  ∀ e ∈ s.idxs, entryInv s.list e

/-- An index runtime state is empty. -/
def emptyIdx : IdxState Key Item → Prop
  | .uniq d => d = []
  | .multi d => d = []

/-- A freshly constructed container: empty sequence, every bound index's
dict empty (`IndexedList.__init__`). -/
def InitState (s : IListState Key Item) : Prop :=
  s.list = [] ∧ ∀ e ∈ s.idxs, emptyIdx e.st

/-- The reachable states: any number of successful `insert`, `append`,
`set` and `delete` calls. -/
inductive Reach [DecidableEq Key] [DecidableEq Item] (s0 : IListState Key Item) :
    IListState Key Item → Prop where
  | refl : Reach s0 s0
  | insert {s s' : IListState Key Item} {i : Int} {v : Item} :
      Reach s0 s → stInsert s i v = (s', none) → Reach s0 s'
  | append {s s' : IListState Key Item} {v : Item} :
      Reach s0 s → stAppend s v = (s', none) → Reach s0 s'
  | set {s s' : IListState Key Item} {i : Int} {v : Item} :
      Reach s0 s → stSet s i v = (s', none) → Reach s0 s'
  | del {s s' : IListState Key Item} {i : Int} :
      Reach s0 s → stDel s i = (s', none) → Reach s0 s'

/-- Membership of an item in the lookup result of a key. -/
def inLookup [DecidableEq Key] [DecidableEq Item] (st : IdxState Key Item)
    (k : Key) (it : Item) : Prop :=
  match st with
  | .uniq d => dLookup d k = some it
  | .multi d => it ∈ (dLookup d k).getD []

/-! ### The `Table` layer -/

/-- A field kind declared on a `Table` subclass: a `UniqueColumn`, a
`MultiColumn`, or an `Unindexed` field. -/
inductive FieldKind where
  | uniqueCol
  | multiCol
  | unindexed
deriving DecidableEq, Repr

/-- The bound index contributed by the field declared at row position `p`.
A column indexes rows by the value at its own position (`Column` is an
`AttributeIndex` restricted to a single name, and in a row the named
attribute is the field at that position).

Modelled from the spec for the `unindexed` case: the `Unindexed` class is
absent from `src/indexed_list.py` (the repository's tests import it); per
the spec an `Unindexed` field is "positional data carried but never
indexed" and "carried in the row but never passed to any key extractor",
so it contributes no index entry. -/
def colEntry [DecidableEq V] (p : Nat) (fk : FieldKind) :
    Option (Entry V (List V)) :=
  match fk with
  | .uniqueCol => some ⟨fun row => getAt row p, .uniq []⟩
  | .multiCol => some ⟨fun row => getAt row p, .multi []⟩
  | .unindexed => none

/-- The bound indexes of a table whose schema starts at position `p`. -/
def entriesFrom [DecidableEq V] (p : Nat) :
    List FieldKind → List (Entry V (List V))
  | [] => []
  | fk :: rest => (colEntry p fk).toList ++ entriesFrom (p + 1) rest

/-- All bound indexes declared by a table schema, in declaration order. -/
def tableEntries [DecidableEq V] (schema : List FieldKind) :
    List (Entry V (List V)) :=
  entriesFrom 0 schema

/-- A freshly constructed table instance: empty sequence, one empty index
per column field. -/
def tableInit [DecidableEq V] (schema : List FieldKind) :
    IListState V (List V) :=
  ⟨[], tableEntries schema⟩

/-- `TupleClass._make(value)`: coerce a raw value sequence into the fixed
row shape; an arity mismatch raises. -/
def mkRow (schema : List FieldKind) (vals : List V) : Option (List V) :=
  if vals.length = schema.length then some vals else none

/-! ### Per-instance state: instances on a heap -/

/-- A class-level `Index` descriptor as declared on an `IndexedList`
subclass: the key-extraction rule and the uniqueness policy.  It carries
no runtime key map. -/
structure IdxSpec (Key Item : Type) where
  key : Item → Option Key
  unique : Bool

/-- `BoundIndex.__init__(index, list_)`: the bound index starts with a
fresh empty `_dict` of its own (`self._dict = {}`); only the key rule and
policy come from the shared descriptor. -/
def freshEntry (sp : IdxSpec Key Item) : Entry Key Item :=
  ⟨sp.key, if sp.unique then .uniq [] else .multi []⟩

/-- A heap of container instances addressed by references, with a fresh
allocation counter. -/
structure Heap (Key Item : Type) where
  mem : Nat → IListState Key Item
  next : Nat

/-- `IndexedList.__init__`: allocate a new instance whose sequence is
empty and whose bound indexes all carry new empty dicts. -/
def newInstance (h : Heap Key Item) (specs : List (IdxSpec Key Item)) :
    Nat × Heap Key Item :=
  (h.next,
    ⟨fun r => if r = h.next then ⟨[], specs.map freshEntry⟩ else h.mem r,
      h.next + 1⟩)

/-- Run one mutation on the instance stored at reference `r`; only that
instance's state is rewritten. -/
def runMut [DecidableEq Key] [DecidableEq Item] (h : Heap Key Item)
    (r : Nat)
    (f : IListState Key Item → IListState Key Item × Option Err) :
    Heap Key Item × Option Err :=
  (⟨fun r' => if r' = r then (f (h.mem r)).1 else h.mem r', h.next⟩,
    (f (h.mem r)).2)

/-- `insert` called on the instance at `r`. -/
def instInsert [DecidableEq Key] [DecidableEq Item] (h : Heap Key Item)
    (r : Nat) (i : Int) (v : Item) : Heap Key Item × Option Err :=
  runMut h r (fun s => stInsert s i v)

/-- `__setitem__` called on the instance at `r`. -/
def instSet [DecidableEq Key] [DecidableEq Item] (h : Heap Key Item)
    (r : Nat) (i : Int) (v : Item) : Heap Key Item × Option Err :=
  runMut h r (fun s => stSet s i v)

/-- `__delitem__` called on the instance at `r`. -/
def instDel [DecidableEq Key] [DecidableEq Item] (h : Heap Key Item)
    (r : Nat) (i : Int) : Heap Key Item × Option Err :=
  runMut h r (fun s => stDel s i)

/-! ### Dict lemmas -/

theorem dLookup_dSet_self [DecidableEq Key] (d : List (Key × V)) (k : Key)
    (v : V) : dLookup (dSet d k v) k = some v := by
  induction d with
  | nil => simp [dSet, dLookup]
  | cons p rest ih =>
    by_cases h : p.1 = k <;> simp [dSet, dLookup, h, ih]

theorem dLookup_dSet_ne [DecidableEq Key] (d : List (Key × V)) (k k' : Key)
    (v : V) (hne : k' ≠ k) : dLookup (dSet d k v) k' = dLookup d k' := by
  have hkk : k ≠ k' := fun h => hne h.symm
  induction d with
  | nil => simp [dSet, dLookup, hkk]
  | cons p rest ih =>
    by_cases h : p.1 = k
    · simp [dSet, dLookup, h, hkk]
    · simp [dSet, dLookup, h, ih]

theorem mem_dSet [DecidableEq Key] (d : List (Key × V)) (k : Key) (v : V)
    (hnd : (d.map Prod.fst).Nodup) (p : Key × V) (hp : p ∈ dSet d k v) :
    p = (k, v) ∨ (p ∈ d ∧ p.1 ≠ k) := by
  induction d with
  | nil => simp [dSet] at hp; simp [hp]
  | cons q rest ih =>
    simp only [List.map_cons, List.nodup_cons, List.mem_map] at hnd
    by_cases h : q.1 = k
    · simp only [dSet, if_pos h, List.mem_cons] at hp
      rcases hp with hp | hp
      · exact .inl hp
      · refine .inr ⟨List.mem_cons_of_mem _ hp, fun hqk => ?_⟩
        exact hnd.1 ⟨p, hp, by rw [hqk, h]⟩
    · simp only [dSet, if_neg h, List.mem_cons] at hp
      rcases hp with hp | hp
      · subst hp; exact .inr ⟨List.mem_cons_self _ _, h⟩
      · rcases ih hnd.2 hp with h' | ⟨h1, h2⟩
        · exact .inl h'
        · exact .inr ⟨List.mem_cons_of_mem _ h1, h2⟩

theorem keys_dSet_subset [DecidableEq Key] (d : List (Key × V)) (k : Key)
    (v : V) (k' : Key) (h : k' ∈ (dSet d k v).map Prod.fst) :
    k' ∈ d.map Prod.fst ∨ k' = k := by
  induction d with
  | nil => simp [dSet] at h; simp [h]
  | cons p rest ih =>
    by_cases hpk : p.1 = k
    · simp only [dSet, if_pos hpk, List.map_cons, List.mem_cons] at h ⊢
      rcases h with h | h
      · exact .inr h
      · exact .inl (.inr h)
    · simp only [dSet, if_neg hpk, List.map_cons, List.mem_cons] at h ⊢
      rcases h with h | h
      · exact .inl (.inl h)
      · rcases ih h with h' | h'
        · exact .inl (.inr h')
        · exact .inr h'

theorem nodup_keys_dSet [DecidableEq Key] (d : List (Key × V)) (k : Key)
    (v : V) (hnd : (d.map Prod.fst).Nodup) :
    ((dSet d k v).map Prod.fst).Nodup := by
  induction d with
  | nil => simp [dSet]
  | cons p rest ih =>
    simp only [List.map_cons, List.nodup_cons] at hnd
    by_cases hpk : p.1 = k
    · simp only [dSet, if_pos hpk, List.map_cons, List.nodup_cons]
      exact ⟨by rw [← hpk]; exact hnd.1, hnd.2⟩
    · simp only [dSet, if_neg hpk, List.map_cons, List.nodup_cons]
      refine ⟨fun hmem => ?_, ih hnd.2⟩
      rcases keys_dSet_subset rest k v p.1 hmem with h | h
      · exact hnd.1 h
      · exact hpk h

theorem dLookup_dDel_self [DecidableEq Key] (d : List (Key × V)) (k : Key)
    (hnd : (d.map Prod.fst).Nodup) : dLookup (dDel d k) k = none := by
  induction d with
  | nil => simp [dDel, dLookup]
  | cons p rest ih =>
    simp only [List.map_cons, List.nodup_cons, List.mem_map] at hnd
    by_cases hpk : p.1 = k
    · simp only [dDel, if_pos hpk]
      cases hlk : dLookup rest k with
      | none => rfl
      | some v =>
        exfalso
        have hmem : (k, v) ∈ rest := by
          clear ih hnd
          induction rest with
          | nil => simp [dLookup] at hlk
          | cons q t iht =>
            by_cases hq : q.1 = k
            · simp only [dLookup, if_pos hq, Option.some.injEq] at hlk
              have hqe : q = (k, v) := by
                obtain ⟨q1, q2⟩ := q
                simp_all
              rw [← hqe]
              exact List.mem_cons_self _ _
            · simp only [dLookup, if_neg hq] at hlk
              exact .tail _ (iht hlk)
        exact hnd.1 ⟨(k, v), hmem, hpk.symm ▸ rfl⟩
    · simp only [dDel, if_neg hpk, dLookup, if_neg hpk]
      exact ih hnd.2

theorem dLookup_dDel_ne [DecidableEq Key] (d : List (Key × V)) (k k' : Key)
    (hne : k' ≠ k) : dLookup (dDel d k) k' = dLookup d k' := by
  induction d with
  | nil => simp [dDel]
  | cons p rest ih =>
    by_cases hpk : p.1 = k
    · simp only [dDel, if_pos hpk, dLookup]
      rw [if_neg (by rw [hpk]; exact fun h => hne h.symm)]
    · simp only [dDel, if_neg hpk, dLookup]
      by_cases h' : p.1 = k' <;> simp [h', ih]

theorem mem_dDel [DecidableEq Key] (d : List (Key × V)) (k : Key)
    (p : Key × V) (hp : p ∈ dDel d k) : p ∈ d := by
  induction d with
  | nil => simp [dDel] at hp
  | cons q rest ih =>
    by_cases hq : q.1 = k
    · simp only [dDel, if_pos hq] at hp
      exact .tail _ hp
    · simp only [dDel, if_neg hq, List.mem_cons] at hp
      rcases hp with hp | hp
      · exact hp ▸ List.mem_cons_self _ _
      · exact .tail _ (ih hp)

theorem keys_dDel_sublist [DecidableEq Key] (d : List (Key × V)) (k : Key) :
    ((dDel d k).map Prod.fst).Sublist (d.map Prod.fst) := by
  induction d with
  | nil => simp [dDel]
  | cons q rest ih =>
    by_cases hq : q.1 = k
    · simp only [dDel, if_pos hq, List.map_cons]
      exact (List.Sublist.refl _).cons _
    · simp only [dDel, if_neg hq, List.map_cons]
      exact ih.cons₂ _

theorem nodup_keys_dDel [DecidableEq Key] (d : List (Key × V)) (k : Key)
    (hnd : (d.map Prod.fst).Nodup) : ((dDel d k).map Prod.fst).Nodup :=
  (keys_dDel_sublist d k).nodup hnd

theorem dLookup_mem [DecidableEq Key] (d : List (Key × V)) (k : Key) (v : V)
    (h : dLookup d k = some v) : (k, v) ∈ d := by
  induction d with
  | nil => simp [dLookup] at h
  | cons q rest ih =>
    by_cases hq : q.1 = k
    · simp only [dLookup, if_pos hq, Option.some.injEq] at h
      have hqe : q = (k, v) := by
        obtain ⟨q1, q2⟩ := q
        simp_all
      rw [← hqe]
      exact List.mem_cons_self _ _
    · simp only [dLookup, if_neg hq] at h
      exact .tail _ (ih h)

theorem mem_dLookup [DecidableEq Key] (d : List (Key × V)) (k : Key) (v : V)
    (hnd : (d.map Prod.fst).Nodup) (h : (k, v) ∈ d) :
    dLookup d k = some v := by
  induction d with
  | nil => simp at h
  | cons q rest ih =>
    simp only [List.map_cons, List.nodup_cons, List.mem_map] at hnd
    rcases List.mem_cons.mp h with h | h
    · rw [← h]
      simp [dLookup]
    · have hq : q.1 ≠ k := fun hk => hnd.1 ⟨(k, v), h, hk.symm ▸ rfl⟩
      simp only [dLookup, if_neg hq]
      exact ih hnd.2 h

/-! ### List lemmas -/

theorem cnt_pos_iff_mem [DecidableEq α] (x : α) (l : List α) :
    0 < cnt x l ↔ x ∈ l := by
  induction l with
  | nil => simp [cnt]
  | cons a t ih =>
    simp only [cnt, List.mem_cons]
    by_cases h : a = x
    · simp only [if_pos h]
      constructor
      · intro _
        exact .inl h.symm
      · intro _
        omega
    · have hxa : ¬(x = a) := fun hx => h hx.symm
      simp [h, hxa, ih]

theorem getAt_mem (l : List α) (j : Nat) {x : α} (h : getAt l j = some x) :
    x ∈ l := by
  induction l generalizing j with
  | nil => simp [getAt] at h
  | cons a t ih =>
    cases j with
    | zero =>
      simp only [getAt, Option.some.injEq] at h
      exact h ▸ List.mem_cons_self _ _
    | succ n => exact .tail _ (ih n h)

theorem cnt_insertAt [DecidableEq α] (v x : α) (j : Nat) (l : List α) :
    cnt x (insertAt j v l) = cnt x l + (if v = x then 1 else 0) := by
  induction j generalizing l with
  | zero => simp [insertAt, cnt]; omega
  | succ n ih =>
    cases l with
    | nil => simp [insertAt, cnt]
    | cons a t => simp [insertAt, cnt, ih]; omega

theorem mem_insertAt [DecidableEq α] (v x : α) (j : Nat) (l : List α) :
    x ∈ insertAt j v l ↔ x = v ∨ x ∈ l := by
  rw [← cnt_pos_iff_mem, cnt_insertAt, ← cnt_pos_iff_mem (x := x) (l := l)]
  by_cases h : v = x
  · simp only [if_pos h]
    constructor
    · intro _
      exact .inl h.symm
    · intro _
      omega
  · have hxv : ¬(x = v) := fun hx => h hx.symm
    simp [h, hxv]

theorem nodup_insertAt [DecidableEq α] (v : α) (j : Nat) (l : List α)
    (hv : v ∉ l) (hnd : l.Nodup) : (insertAt j v l).Nodup := by
  induction j generalizing l with
  | zero => simp only [insertAt, List.nodup_cons]; exact ⟨hv, hnd⟩
  | succ n ih =>
    cases l with
    | nil => simp [insertAt]
    | cons a t =>
      simp only [List.nodup_cons] at hnd
      simp only [insertAt, List.nodup_cons]
      refine ⟨fun hmem => ?_, ih t (fun h => hv (.tail _ h)) hnd.2⟩
      rcases (mem_insertAt v a n t).mp hmem with h | h
      · exact hv (h ▸ List.mem_cons_self _ _)
      · exact hnd.1 h

theorem insertAt_ge_length (v : α) (j : Nat) (l : List α)
    (h : l.length ≤ j) : insertAt j v l = l ++ [v] := by
  induction l generalizing j with
  | nil =>
    cases j with
    | zero => rfl
    | succ n => rfl
  | cons a t ih =>
    cases j with
    | zero => simp at h
    | succ n =>
      simp only [List.length_cons, Nat.succ_le_succ_iff] at h
      simp [insertAt, ih n h]

theorem insertAt_zero (v : α) (l : List α) : insertAt 0 v l = v :: l := rfl

theorem cnt_setAt [DecidableEq α] (v x old : α) (j : Nat) (l : List α)
    (h : getAt l j = some old) :
    cnt x (setAt j v l) + (if old = x then 1 else 0)
      = cnt x l + (if v = x then 1 else 0) := by
  induction l generalizing j with
  | nil => simp [getAt] at h
  | cons a t ih =>
    cases j with
    | zero =>
      simp only [getAt, Option.some.injEq] at h
      subst h
      simp [setAt, cnt]
      ring
    | succ n =>
      simp only [getAt] at h
      simp only [setAt, cnt]
      have := ih n h
      omega

theorem mem_setAt_of_mem [DecidableEq α] (v x : α) (j : Nat) (l : List α)
    (hx : x ∈ setAt j v l) : x = v ∨ x ∈ l := by
  induction l generalizing j with
  | nil => simp [setAt] at hx
  | cons a t ih =>
    cases j with
    | zero =>
      rcases List.mem_cons.mp hx with h | h
      · exact .inl h
      · exact .inr (.tail _ h)
    | succ n =>
      rcases List.mem_cons.mp hx with h | h
      · exact .inr (h ▸ List.mem_cons_self _ _)
      · rcases ih n h with h' | h'
        · exact .inl h'
        · exact .inr (.tail _ h')

theorem mem_setAt_nodup [DecidableEq α] (v x old : α) (j : Nat) (l : List α)
    (hnd : l.Nodup) (h : getAt l j = some old) :
    x ∈ setAt j v l ↔ x = v ∨ (x ∈ l ∧ x ≠ old) := by
  induction l generalizing j with
  | nil => simp [getAt] at h
  | cons a t ih =>
    simp only [List.nodup_cons] at hnd
    cases j with
    | zero =>
      simp only [getAt, Option.some.injEq] at h
      subst h
      simp only [setAt, List.mem_cons]
      constructor
      · rintro (h | h)
        · exact .inl h
        · refine .inr ⟨.inr h, fun hx => ?_⟩
          exact hnd.1 (hx ▸ h)
      · rintro (h | ⟨(h' | h'), hne⟩)
        · exact .inl h
        · exact absurd h' hne
        · exact .inr h'
    | succ n =>
      simp only [getAt] at h
      have hot : old ∈ t := getAt_mem t n h
      simp only [setAt, List.mem_cons, ih n hnd.2 h]
      constructor
      · rintro (h' | h' | h')
        · refine .inr ⟨.inl h', fun hx => ?_⟩
          refine hnd.1 ?_
          rw [h'.symm.trans hx]
          exact hot
        · exact .inl h'
        · exact .inr ⟨.inr h'.1, h'.2⟩
      · rintro (h' | ⟨(h1 | h1), h2⟩)
        · exact .inr (.inl h')
        · exact .inl h1
        · exact .inr (.inr ⟨h1, h2⟩)

theorem nodup_setAt [DecidableEq α] (v old : α) (j : Nat) (l : List α)
    (hnd : l.Nodup) (h : getAt l j = some old) (hv : v = old ∨ v ∉ l) :
    (setAt j v l).Nodup := by
  induction l generalizing j with
  | nil => simp [setAt]
  | cons a t ih =>
    simp only [List.nodup_cons] at hnd
    cases j with
    | zero =>
      simp only [getAt, Option.some.injEq] at h
      subst h
      simp only [setAt, List.nodup_cons]
      refine ⟨fun hmem => ?_, hnd.2⟩
      rcases hv with hv | hv
      · exact hnd.1 (hv ▸ hmem)
      · exact hv (.tail _ hmem)
    | succ n =>
      simp only [getAt] at h
      simp only [setAt, List.nodup_cons]
      have hot : old ∈ t := getAt_mem t n h
      refine ⟨fun hmem => ?_, ih n hnd.2 h (by
        rcases hv with hv | hv
        · exact .inl hv
        · exact .inr (fun hm => hv (.tail _ hm)))⟩
      rcases mem_setAt_of_mem v a n t hmem with h' | h'
      · rcases hv with hv | hv
        · exact hnd.1 (h' ▸ hv ▸ hot)
        · exact hv (h' ▸ List.mem_cons_self _ _)
      · exact hnd.1 h'

theorem cnt_removeAt [DecidableEq α] (x old : α) (j : Nat) (l : List α)
    (h : getAt l j = some old) :
    cnt x (removeAt j l) + (if old = x then 1 else 0) = cnt x l := by
  induction l generalizing j with
  | nil => simp [getAt] at h
  | cons a t ih =>
    cases j with
    | zero =>
      simp only [getAt, Option.some.injEq] at h
      subst h
      simp [removeAt, cnt]
      ring
    | succ n =>
      simp only [getAt] at h
      simp only [removeAt, cnt]
      have := ih n h
      omega

theorem mem_removeAt_of_mem [DecidableEq α] (x : α) (j : Nat) (l : List α)
    (hx : x ∈ removeAt j l) : x ∈ l := by
  induction l generalizing j with
  | nil => simp [removeAt] at hx
  | cons a t ih =>
    cases j with
    | zero => exact .tail _ hx
    | succ n =>
      rcases List.mem_cons.mp hx with h | h
      · exact h ▸ List.mem_cons_self _ _
      · exact .tail _ (ih n h)

theorem cnt_le_one_of_nodup [DecidableEq α] (x : α) (l : List α)
    (hnd : l.Nodup) : cnt x l ≤ 1 := by
  induction l with
  | nil => simp [cnt]
  | cons a t ih =>
    simp only [List.nodup_cons] at hnd
    by_cases h : a = x
    · subst h
      have h0 : cnt a t = 0 := by
        by_contra hc
        exact hnd.1 ((cnt_pos_iff_mem a t).mp (by omega))
      simp [cnt, h0]
    · simp only [cnt, if_neg h, Nat.zero_add]
      exact ih hnd.2

theorem mem_removeAt_nodup [DecidableEq α] (x old : α) (j : Nat)
    (l : List α) (hnd : l.Nodup) (h : getAt l j = some old) :
    x ∈ removeAt j l ↔ x ∈ l ∧ x ≠ old := by
  have hcnt := cnt_removeAt x old j l h
  rw [← cnt_pos_iff_mem, ← cnt_pos_iff_mem (x := x) (l := l)]
  constructor
  · intro hpos
    have hle : cnt x l ≤ 1 := cnt_le_one_of_nodup x l hnd
    refine ⟨by omega, fun hx => ?_⟩
    subst hx
    rw [if_pos rfl] at hcnt
    omega
  · rintro ⟨hpos, hne⟩
    have hif : (if old = x then 1 else 0) = 0 :=
      if_neg (fun hx => hne hx.symm)
    omega

theorem nodup_removeAt [DecidableEq α] (j : Nat) (l : List α)
    (hnd : l.Nodup) : (removeAt j l).Nodup := by
  induction l generalizing j with
  | nil => simp [removeAt]
  | cons a t ih =>
    simp only [List.nodup_cons] at hnd
    cases j with
    | zero => exact hnd.2
    | succ n =>
      simp only [removeAt, List.nodup_cons]
      exact ⟨fun hm => hnd.1 (mem_removeAt_of_mem a n t hm), ih n hnd.2⟩

theorem listIndexOf_getAt [DecidableEq α] (l : List α) (x : α) (p : Nat)
    (h : listIndexOf l x = some p) : getAt l p = some x := by
  induction l generalizing p with
  | nil => simp [listIndexOf] at h
  | cons a t ih =>
    by_cases ha : a = x
    · simp only [listIndexOf, if_pos ha, Option.some.injEq] at h
      subst h
      simp [getAt, ha]
    · simp only [listIndexOf, if_neg ha, Option.map_eq_some'] at h
      obtain ⟨q, hq, hqp⟩ := h
      subst hqp
      simpa [getAt] using ih q hq

theorem listIndexOf_isSome_of_mem [DecidableEq α] (l : List α) (x : α)
    (h : x ∈ l) : (listIndexOf l x).isSome := by
  induction l with
  | nil => simp at h
  | cons a t ih =>
    by_cases ha : a = x
    · simp [listIndexOf, ha]
    · rcases List.mem_cons.mp h with h' | h'
      · exact absurd h'.symm ha
      · simp only [listIndexOf, if_neg ha]
        cases hio : listIndexOf t x with
        | none => rw [hio] at ih; simpa using ih h'
        | some q => simp

theorem listIndexOf_of_getAt_nodup [DecidableEq α] (l : List α) (x : α)
    (p : Nat) (hnd : l.Nodup) (h : getAt l p = some x) :
    listIndexOf l x = some p := by
  induction l generalizing p with
  | nil => simp [getAt] at h
  | cons a t ih =>
    simp only [List.nodup_cons] at hnd
    cases p with
    | zero =>
      simp only [getAt, Option.some.injEq] at h
      simp [listIndexOf, h]
    | succ n =>
      simp only [getAt] at h
      have hxt : x ∈ t := getAt_mem t n h
      have ha : a ≠ x := fun hax => hnd.1 (hax ▸ hxt)
      simp [listIndexOf, ha, ih n hnd.2 h]

theorem listRemoveFirst_isSome_of_mem [DecidableEq α] (l : List α) (x : α)
    (h : x ∈ l) : (listRemoveFirst l x).isSome := by
  induction l with
  | nil => simp at h
  | cons a t ih =>
    by_cases ha : a = x
    · simp [listRemoveFirst, ha]
    · rcases List.mem_cons.mp h with h' | h'
      · exact absurd h'.symm ha
      · simp only [listRemoveFirst, if_neg ha]
        cases hio : listRemoveFirst t x with
        | none => rw [hio] at ih; simpa using ih h'
        | some l' => simp

theorem cnt_listRemoveFirst [DecidableEq α] (l l' : List α) (x y : α)
    (h : listRemoveFirst l x = some l') :
    cnt y l' + (if x = y then 1 else 0) = cnt y l := by
  induction l generalizing l' with
  | nil => simp [listRemoveFirst] at h
  | cons a t ih =>
    by_cases ha : a = x
    · simp only [listRemoveFirst, if_pos ha, Option.some.injEq] at h
      subst h
      subst ha
      simp [cnt]
      ring
    · simp only [listRemoveFirst, if_neg ha, Option.map_eq_some'] at h
      obtain ⟨t', ht', rfl⟩ := h
      simp only [cnt]
      have := ih t' ht'
      omega

theorem mem_listRemoveFirst_of_mem [DecidableEq α] (l l' : List α) (x y : α)
    (h : listRemoveFirst l x = some l') (hy : y ∈ l') : y ∈ l := by
  induction l generalizing l' with
  | nil => simp [listRemoveFirst] at h
  | cons a t ih =>
    by_cases ha : a = x
    · simp only [listRemoveFirst, if_pos ha, Option.some.injEq] at h
      subst h
      exact .tail _ hy
    · simp only [listRemoveFirst, if_neg ha, Option.map_eq_some'] at h
      obtain ⟨t', ht', rfl⟩ := h
      rcases List.mem_cons.mp hy with h' | h'
      · exact h' ▸ List.mem_cons_self _ _
      · exact .tail _ (ih t' ht' h')

theorem cnt_append [DecidableEq α] (x : α) (l1 l2 : List α) :
    cnt x (l1 ++ l2) = cnt x l1 + cnt x l2 := by
  induction l1 with
  | nil => simp [cnt]
  | cons a t ih => simp [cnt, ih]; omega

/-! ### Success characterizations of the index operations -/

theorem prepareAdd_uniq_none [DecidableEq Key] [DecidableEq Item]
    (list : List Item) (key : Item → Option Key) (d : List (Key × Item))
    (v : Item) (skip : Option Int)
    (h : prepareAdd list ⟨key, .uniq d⟩ v skip = none) :
    ∃ k, key v = some k ∧
      (dLookup d k = none ∨
        ∃ stored p, dLookup d k = some stored ∧
          listIndexOf list stored = some p ∧ skip = some (p : Int)) := by
  simp only [prepareAdd] at h
  cases hkv : key v with
  | none => rw [hkv] at h; simp at h
  | some k =>
    rw [hkv] at h
    dsimp only at h
    refine ⟨k, rfl, ?_⟩
    cases hl : dLookup d k with
    | none => exact .inl rfl
    | some stored =>
      rw [hl] at h
      dsimp only at h
      cases hio : listIndexOf list stored with
      | none => rw [hio] at h; simp at h
      | some p =>
        rw [hio] at h
        dsimp only at h
        by_cases hsk : skip = some (p : Int)
        · exact .inr ⟨stored, p, rfl, hio, hsk⟩
        · rw [if_neg hsk] at h; simp at h

theorem idxAdd_uniq_ok [DecidableEq Key] [DecidableEq Item]
    (key : Item → Option Key) (d : List (Key × Item)) (v : Item)
    (e' : Entry Key Item)
    (h : idxAdd ⟨key, .uniq d⟩ v = .ok e') :
    ∃ k, key v = some k ∧ e' = ⟨key, .uniq (dSet d k v)⟩ := by
  simp only [idxAdd] at h
  cases hkv : key v with
  | none => rw [hkv] at h; simp at h
  | some k =>
    rw [hkv] at h
    cases h
    exact ⟨k, rfl, rfl⟩

theorem idxAdd_multi_ok [DecidableEq Key] [DecidableEq Item]
    (key : Item → Option Key) (d : List (Key × List Item)) (v : Item)
    (e' : Entry Key Item)
    (h : idxAdd ⟨key, .multi d⟩ v = .ok e') :
    ∃ k, key v = some k ∧
      e' = ⟨key, .multi (dSet d k ((dLookup d k).getD [] ++ [v]))⟩ := by
  simp only [idxAdd] at h
  cases hkv : key v with
  | none => rw [hkv] at h; simp at h
  | some k =>
    rw [hkv] at h
    cases h
    exact ⟨k, rfl, rfl⟩

theorem idxRemove_uniq_ok [DecidableEq Key] [DecidableEq Item]
    (key : Item → Option Key) (d : List (Key × Item)) (old : Item)
    (e' : Entry Key Item)
    (h : idxRemove ⟨key, .uniq d⟩ old = .ok e') :
    ∃ k stored, key old = some k ∧ dLookup d k = some stored ∧
      e' = ⟨key, .uniq (dDel d k)⟩ := by
  simp only [idxRemove] at h
  cases hkv : key old with
  | none => rw [hkv] at h; simp at h
  | some k =>
    rw [hkv] at h
    dsimp only at h
    cases hl : dLookup d k with
    | none => rw [hl] at h; simp at h
    | some stored =>
      rw [hl] at h
      dsimp only at h
      cases h
      exact ⟨k, stored, rfl, hl, rfl⟩

theorem idxRemove_multi_ok [DecidableEq Key] [DecidableEq Item]
    (key : Item → Option Key) (d : List (Key × List Item)) (old : Item)
    (e' : Entry Key Item)
    (h : idxRemove ⟨key, .multi d⟩ old = .ok e') :
    ∃ k l l', key old = some k ∧ dLookup d k = some l ∧
      listRemoveFirst l old = some l' ∧ e' = ⟨key, .multi (dSet d k l')⟩ := by
  simp only [idxRemove] at h
  cases hkv : key old with
  | none => rw [hkv] at h; simp at h
  | some k =>
    rw [hkv] at h
    dsimp only at h
    cases hl : dLookup d k with
    | none => rw [hl] at h; simp at h
    | some l =>
      rw [hl] at h
      dsimp only at h
      cases hr : listRemoveFirst l old with
      | none => rw [hr] at h; simp at h
      | some l' =>
        rw [hr] at h
        dsimp only at h
        cases h
        exact ⟨k, l, l', rfl, hl, hr, rfl⟩

theorem keys_dDel_not_mem [DecidableEq Key] (d : List (Key × V)) (k : Key)
    (hnd : (d.map Prod.fst).Nodup) (p : Key × V) (hp : p ∈ dDel d k) :
    p.1 ≠ k := by
  intro hpk
  have hmem : p ∈ d := mem_dDel d k p hp
  have : dLookup (dDel d k) k = none := dLookup_dDel_self d k hnd
  have hnd' : ((dDel d k).map Prod.fst).Nodup := nodup_keys_dDel d k hnd
  have : dLookup (dDel d k) p.1 = some p.2 := by
    refine mem_dLookup _ _ _ hnd' ?_
    have : p = (p.1, p.2) := rfl
    rw [← this]
    exact hp
  rw [hpk] at this
  rw [dLookup_dDel_self d k hnd] at this
  exact Option.noConfusion this

/-! ### Invariant preservation, entry level -/

theorem entryUniqInv_insert [DecidableEq Key] [DecidableEq Item]
    (list : List Item) (key : Item → Option Key) (d : List (Key × Item))
    (v : Item) (k : Key) (j : Nat)
    (hinv : entryUniqInv list key d)
    (hk : key v = some k) (hfresh : dLookup d k = none) :
    entryUniqInv (insertAt j v list) key (dSet d k v) := by
  obtain ⟨h1, h2, h3, h4⟩ := hinv
  have hvnot : v ∉ list := by
    intro hv
    obtain ⟨k', hk', hl'⟩ := h1 v hv
    rw [hk] at hk'
    cases hk'
    rw [hfresh] at hl'
    exact Option.noConfusion hl'
  refine ⟨?_, ?_, nodup_keys_dSet d k v h3, nodup_insertAt v j list hvnot h4⟩
  · intro it hit
    rcases (mem_insertAt v it j list).mp hit with hiv | hil
    · rw [hiv]
      exact ⟨k, hk, dLookup_dSet_self d k v⟩
    · obtain ⟨k', hk', hl'⟩ := h1 it hil
      have hkk : k' ≠ k := by
        intro hkk
        rw [hkk, hfresh] at hl'
        exact Option.noConfusion hl'
      exact ⟨k', hk', by rw [dLookup_dSet_ne d k k' v hkk]; exact hl'⟩
  · intro p hp
    rcases mem_dSet d k v h3 p hp with hp' | ⟨hpd, _⟩
    · subst hp'
      exact ⟨hk, (mem_insertAt v v j list).mpr (.inl rfl)⟩
    · obtain ⟨hpk, hpl⟩ := h2 p hpd
      exact ⟨hpk, (mem_insertAt v p.2 j list).mpr (.inr hpl)⟩

theorem entryMultiInv_add [DecidableEq Key] [DecidableEq Item]
    (list : List Item) (key : Item → Option Key)
    (d : List (Key × List Item)) (v : Item) (k : Key) (j : Nat)
    (hinv : entryMultiInv list key d) (hk : key v = some k) :
    entryMultiInv (insertAt j v list) key
      (dSet d k ((dLookup d k).getD [] ++ [v])) := by
  obtain ⟨m1, m2, m3, m4⟩ := hinv
  refine ⟨?_, ?_, ?_, nodup_keys_dSet d k _ m4⟩
  · intro it hit
    rcases (mem_insertAt v it j list).mp hit with hiv | hil
    · subst hiv
      simp [hk]
    · exact m1 it hil
  · intro p hp it hitp
    rcases mem_dSet d k _ m4 p hp with hp' | ⟨hpd, _⟩
    · subst hp'
      rcases List.mem_append.mp hitp with hb | hv
      · cases hldk : dLookup d k with
        | none => rw [hldk] at hb; simp at hb
        | some l =>
          rw [hldk] at hb
          simp only [Option.getD_some] at hb
          exact m2 (k, l) (dLookup_mem d k l hldk) it hb
      · simp only [List.mem_singleton] at hv
        subst hv
        exact hk
    · exact m2 p hpd it hitp
  · intro it k' hk'
    rw [cnt_insertAt]
    by_cases hkk : k' = k
    · subst hkk
      rw [dLookup_dSet_self]
      simp only [Option.getD_some]
      rw [cnt_append, m3 it k' hk']
      simp only [cnt]
      by_cases hvi : v = it
      · simp [hvi]
      · simp [hvi, cnt]
    · rw [dLookup_dSet_ne d k k' _ hkk]
      rw [m3 it k' hk']
      have hvi : v ≠ it := by
        intro hvi
        subst hvi
        rw [hk] at hk'
        cases hk'
        exact hkk rfl
      simp [hvi]

theorem entryInv_insert_step [DecidableEq Key] [DecidableEq Item]
    (list : List Item) (e e' : Entry Key Item) (v : Item) (j : Nat)
    (hinv : entryInv list e)
    (hprep : prepareAdd list e v none = none)
    (hadd : idxAdd e v = .ok e') :
    entryInv (insertAt j v list) e' := by
  obtain ⟨key, st⟩ := e
  cases st with
  | uniq d =>
    obtain ⟨k, hk, rfl⟩ := idxAdd_uniq_ok key d v e' hadd
    obtain ⟨k', hk', hcase⟩ := prepareAdd_uniq_none list key d v none hprep
    rw [hk] at hk'
    cases hk'
    rcases hcase with hfresh | ⟨stored, p, _, _, hskip⟩
    · exact entryUniqInv_insert list key d v k j hinv hk hfresh
    · exact Option.noConfusion hskip
  | multi d =>
    obtain ⟨k, hk, rfl⟩ := idxAdd_multi_ok key d v e' hadd
    exact entryMultiInv_add list key d v k j hinv hk

theorem cnt_singleton [DecidableEq α] (x a : α) :
    cnt x [a] = if a = x then 1 else 0 := by
  simp [cnt]

theorem entryUniqInv_del [DecidableEq Key] [DecidableEq Item]
    (list : List Item) (key : Item → Option Key) (d : List (Key × Item))
    (old : Item) (ko : Key) (j : Nat)
    (hinv : entryUniqInv list key d)
    (hko : key old = some ko)
    (hold : getAt list j = some old) :
    entryUniqInv (removeAt j list) key (dDel d ko) := by
  obtain ⟨h1, h2, h3, h4⟩ := hinv
  have holdmem : old ∈ list := getAt_mem list j hold
  obtain ⟨ko2, hko2, hdol⟩ := h1 old holdmem
  rw [hko] at hko2
  cases hko2
  refine ⟨?_, ?_, nodup_keys_dDel d ko h3, nodup_removeAt j list h4⟩
  · intro it hit
    obtain ⟨hitl, hitold⟩ := (mem_removeAt_nodup it old j list h4 hold).mp hit
    obtain ⟨k', hk', hl'⟩ := h1 it hitl
    have hkk : k' ≠ ko := by
      intro hkk
      rw [hkk] at hl'
      rw [hl'] at hdol
      cases hdol
      exact hitold rfl
    exact ⟨k', hk', by rw [dLookup_dDel_ne d ko k' hkk]; exact hl'⟩
  · intro p hp
    obtain ⟨pk, pv⟩ := p
    have hpd : (pk, pv) ∈ d := mem_dDel d ko (pk, pv) hp
    obtain ⟨hpk, hpl⟩ := h2 (pk, pv) hpd
    have hpko : pk ≠ ko := keys_dDel_not_mem d ko h3 (pk, pv) hp
    have hpnold : pv ≠ old := by
      intro hpo
      rw [hpo, hko] at hpk
      cases hpk
      exact hpko rfl
    exact ⟨hpk, (mem_removeAt_nodup pv old j list h4 hold).mpr ⟨hpl, hpnold⟩⟩

theorem entryMultiInv_del [DecidableEq Key] [DecidableEq Item]
    (list : List Item) (key : Item → Option Key)
    (d : List (Key × List Item)) (old : Item) (ko : Key) (j : Nat)
    (l l' : List Item)
    (hinv : entryMultiInv list key d)
    (hko : key old = some ko)
    (hold : getAt list j = some old)
    (hl : dLookup d ko = some l)
    (hl' : listRemoveFirst l old = some l') :
    entryMultiInv (removeAt j list) key (dSet d ko l') := by
  obtain ⟨m1, m2, m3, m4⟩ := hinv
  refine ⟨?_, ?_, ?_, nodup_keys_dSet d ko l' m4⟩
  · intro it hit
    exact m1 it (mem_removeAt_of_mem it j list hit)
  · intro p hp it hitp
    rcases mem_dSet d ko l' m4 p hp with hp' | ⟨hpd, _⟩
    · subst hp'
      have hitl : it ∈ l := mem_listRemoveFirst_of_mem l l' old it hl' hitp
      exact m2 (ko, l) (dLookup_mem d ko l hl) it hitl
    · exact m2 p hpd it hitp
  · intro it k' hk'
    have hcnt := cnt_removeAt it old j list hold
    by_cases hkk : k' = ko
    · subst hkk
      rw [dLookup_dSet_self]
      simp only [Option.getD_some]
      have hc1 := cnt_listRemoveFirst l l' old it hl'
      have hc2 := m3 it k' hk'
      rw [hl] at hc2
      simp only [Option.getD_some] at hc2
      omega
    · rw [dLookup_dSet_ne d ko k' l' hkk]
      have hc2 := m3 it k' hk'
      have holdit : old ≠ it := by
        intro hoi
        rw [← hoi, hko] at hk'
        cases hk'
        exact hkk rfl
      have hz : (if old = it then 1 else 0) = 0 := if_neg holdit
      omega

theorem entryInv_del_step [DecidableEq Key] [DecidableEq Item]
    (list : List Item) (e e' : Entry Key Item) (old : Item) (j : Nat)
    (hinv : entryInv list e)
    (hold : getAt list j = some old)
    (hrem : idxRemove e old = .ok e') :
    entryInv (removeAt j list) e' := by
  obtain ⟨key, st⟩ := e
  cases st with
  | uniq d =>
    obtain ⟨k, stored, hk, _, rfl⟩ := idxRemove_uniq_ok key d old e' hrem
    exact entryUniqInv_del list key d old k j hinv hk hold
  | multi d =>
    obtain ⟨k, l, l', hk, hl, hl', rfl⟩ := idxRemove_multi_ok key d old e' hrem
    exact entryMultiInv_del list key d old k j l l' hinv hk hold hl hl'

theorem entryUniqInv_set [DecidableEq Key] [DecidableEq Item]
    (list : List Item) (key : Item → Option Key) (d : List (Key × Item))
    (v old : Item) (kv ko : Key) (j : Nat)
    (hinv : entryUniqInv list key d)
    (hk : key v = some kv) (hko : key old = some ko)
    (hold : getAt list j = some old)
    (hcase : dLookup d kv = none ∨ dLookup d kv = some old) :
    entryUniqInv (setAt j v list) key (dSet (dDel d ko) kv v) := by
  obtain ⟨h1, h2, h3, h4⟩ := hinv
  have holdmem : old ∈ list := getAt_mem list j hold
  obtain ⟨ko2, hko2, hdol⟩ := h1 old holdmem
  rw [hko] at hko2
  cases hko2
  have hvcase : v = old ∨ v ∉ list := by
    by_cases hvo : v = old
    · exact .inl hvo
    · refine .inr (fun hv => ?_)
      obtain ⟨kv2, hkv2, hdv⟩ := h1 v hv
      rw [hk] at hkv2
      cases hkv2
      rcases hcase with hc | hc
      · rw [hc] at hdv
        exact Option.noConfusion hdv
      · rw [hc] at hdv
        cases hdv
        exact hvo rfl
  have h3' := nodup_keys_dDel d ko h3
  have hfresh : dLookup (dDel d ko) kv = none := by
    rcases hcase with hc | hc
    · by_cases hkvko : kv = ko
      · rw [hkvko]
        exact dLookup_dDel_self d ko h3
      · rw [dLookup_dDel_ne d ko kv hkvko]
        exact hc
    · have hmm := (h2 (kv, old) (dLookup_mem d kv old hc)).1
      rw [hko] at hmm
      cases hmm
      exact dLookup_dDel_self d kv h3
  refine ⟨?_, ?_, nodup_keys_dSet (dDel d ko) kv v h3',
    nodup_setAt v old j list h4 hold hvcase⟩
  · intro it hit
    rcases (mem_setAt_nodup v it old j list h4 hold).mp hit with hiv | ⟨hil, hino⟩
    · rw [hiv]
      exact ⟨kv, hk, dLookup_dSet_self (dDel d ko) kv v⟩
    · obtain ⟨k', hk', hl'⟩ := h1 it hil
      have hkko : k' ≠ ko := by
        intro hkk
        rw [hkk] at hl'
        rw [hl'] at hdol
        cases hdol
        exact hino rfl
      have hkkv : k' ≠ kv := by
        intro hkk
        rw [hkk] at hl'
        rcases hcase with hc | hc
        · rw [hc] at hl'
          exact Option.noConfusion hl'
        · rw [hc] at hl'
          cases hl'
          exact hino rfl
      refine ⟨k', hk', ?_⟩
      rw [dLookup_dSet_ne (dDel d ko) kv k' v hkkv,
        dLookup_dDel_ne d ko k' hkko]
      exact hl'
  · intro p hp
    rcases mem_dSet (dDel d ko) kv v h3' p hp with hp' | ⟨hpd, _⟩
    · subst hp'
      exact ⟨hk, (mem_setAt_nodup v v old j list h4 hold).mpr (.inl rfl)⟩
    · obtain ⟨pk, pv⟩ := p
      have hpind : (pk, pv) ∈ d := mem_dDel d ko (pk, pv) hpd
      obtain ⟨hpk, hpl⟩ := h2 (pk, pv) hpind
      have hpko : pk ≠ ko := keys_dDel_not_mem d ko h3 (pk, pv) hpd
      have hpnold : pv ≠ old := by
        intro hpo
        rw [hpo, hko] at hpk
        cases hpk
        exact hpko rfl
      exact ⟨hpk,
        (mem_setAt_nodup v pv old j list h4 hold).mpr (.inr ⟨hpl, hpnold⟩)⟩

theorem entryMultiInv_set [DecidableEq Key] [DecidableEq Item]
    (list : List Item) (key : Item → Option Key)
    (d : List (Key × List Item)) (v old : Item) (kv ko : Key) (j : Nat)
    (l l' : List Item)
    (hinv : entryMultiInv list key d)
    (hk : key v = some kv) (hko : key old = some ko)
    (hold : getAt list j = some old)
    (hl : dLookup d ko = some l)
    (hl' : listRemoveFirst l old = some l') :
    entryMultiInv (setAt j v list) key
      (dSet (dSet d ko l') kv
        ((dLookup (dSet d ko l') kv).getD [] ++ [v])) := by
  obtain ⟨m1, m2, m3, m4⟩ := hinv
  have m4' := nodup_keys_dSet d ko l' m4
  refine ⟨?_, ?_, ?_, nodup_keys_dSet (dSet d ko l') kv _ m4'⟩
  · intro it hit
    rcases mem_setAt_of_mem v it j list hit with hiv | hil
    · rw [hiv, hk]
      rfl
    · exact m1 it hil
  · intro p hp it hitp
    have hl_elems : ∀ x ∈ l, key x = some ko :=
      m2 (ko, l) (dLookup_mem d ko l hl)
    have hd1_elems : ∀ q ∈ dSet d ko l', ∀ x ∈ q.2, key x = some q.1 := by
      intro q hq x hx
      rcases mem_dSet d ko l' m4 q hq with hq' | ⟨hqd, _⟩
      · subst hq'
        exact hl_elems x (mem_listRemoveFirst_of_mem l l' old x hl' hx)
      · exact m2 q hqd x hx
    rcases mem_dSet (dSet d ko l') kv _ m4' p hp with hp' | ⟨hpd, _⟩
    · subst hp'
      rcases List.mem_append.mp hitp with hb | hv
      · cases hldk : dLookup (dSet d ko l') kv with
        | none => rw [hldk] at hb; simp at hb
        | some b =>
          rw [hldk] at hb
          simp only [Option.getD_some] at hb
          exact hd1_elems (kv, b) (dLookup_mem _ kv b hldk) it hb
      · simp only [List.mem_singleton] at hv
        rw [hv]
        exact hk
    · exact hd1_elems p hpd it hitp
  · intro it k' hk'
    have hcnt := cnt_setAt v it old j list hold
    have hc1 := cnt_listRemoveFirst l l' old it hl'
    by_cases hkkv : k' = kv
    · subst hkkv
      rw [dLookup_dSet_self]
      simp only [Option.getD_some]
      rw [cnt_append, cnt_singleton]
      by_cases hkvko : k' = ko
      · subst hkvko
        rw [dLookup_dSet_self]
        simp only [Option.getD_some]
        have hc2 := m3 it k' hk'
        rw [hl] at hc2
        simp only [Option.getD_some] at hc2
        omega
      · rw [dLookup_dSet_ne d ko k' l' hkvko]
        have hc2 := m3 it k' hk'
        have hoi : old ≠ it := by
          intro hoi
          rw [← hoi, hko] at hk'
          cases hk'
          exact hkvko rfl
        have hz : (if old = it then 1 else 0) = 0 := if_neg hoi
        omega
    · rw [dLookup_dSet_ne (dSet d ko l') kv k' _ hkkv]
      have hvi : v ≠ it := by
        intro hvi
        rw [← hvi, hk] at hk'
        cases hk'
        exact hkkv rfl
      have hzv : (if v = it then 1 else 0) = 0 := if_neg hvi
      by_cases hkko : k' = ko
      · subst hkko
        rw [dLookup_dSet_self]
        simp only [Option.getD_some]
        have hc2 := m3 it k' hk'
        rw [hl] at hc2
        simp only [Option.getD_some] at hc2
        omega
      · rw [dLookup_dSet_ne d ko k' l' hkko]
        have hc2 := m3 it k' hk'
        have hoi : old ≠ it := by
          intro hoi
          rw [← hoi, hko] at hk'
          cases hk'
          exact hkko rfl
        have hz : (if old = it then 1 else 0) = 0 := if_neg hoi
        omega

theorem pyNorm_coe (n p : Nat) :
    pyNorm n (p : Int) = if p < n then some p else none := by
  simp only [pyNorm]
  have h1 : ¬((p : Int) < 0) := by omega
  rw [if_neg h1]
  by_cases h : p < n
  · rw [if_pos ⟨by omega, by omega⟩, if_pos h]
    simp
  · rw [if_neg (by omega), if_neg h]

theorem getAt_some_lt (l : List α) (n : Nat) (x : α)
    (h : getAt l n = some x) : n < l.length := by
  induction l generalizing n with
  | nil => simp [getAt] at h
  | cons a t ih =>
    cases n with
    | zero => simp
    | succ m =>
      simp only [getAt] at h
      have := ih m h
      simp only [List.length_cons]
      omega

theorem getAt_lt_length (l : List α) (n : Nat) (h : n < l.length) :
    ∃ x, getAt l n = some x := by
  induction l generalizing n with
  | nil => simp at h
  | cons a t ih =>
    cases n with
    | zero => exact ⟨a, rfl⟩
    | succ m =>
      simp only [List.length_cons] at h
      exact ih m (by omega)

theorem mem_iff_getAt (l : List α) (x : α) :
    x ∈ l ↔ ∃ n, getAt l n = some x := by
  induction l with
  | nil =>
    simp only [List.not_mem_nil, false_iff]
    rintro ⟨n, hn⟩
    simp [getAt] at hn
  | cons a t ih =>
    simp only [List.mem_cons, ih]
    constructor
    · rintro (h | ⟨n, hn⟩)
      · exact ⟨0, by simp [getAt, h]⟩
      · exact ⟨n + 1, hn⟩
    · rintro ⟨n, hn⟩
      cases n with
      | zero =>
        simp only [getAt, Option.some.injEq] at hn
        exact .inl hn.symm
      | succ m => exact .inr ⟨m, hn⟩

theorem entryInv_set_step [DecidableEq Key] [DecidableEq Item]
    (list : List Item) (e e1 e' : Entry Key Item) (v old : Item)
    (i : Int) (j : Nat)
    (hinv : entryInv list e)
    (hprep : prepareAdd list e v (some i) = none)
    (hnorm : pyNorm list.length i = some j)
    (hold : getAt list j = some old)
    (hrem : idxRemove e old = .ok e1)
    (hadd : idxAdd e1 v = .ok e') :
    entryInv (setAt j v list) e' := by
  obtain ⟨key, st⟩ := e
  cases st with
  | uniq d =>
    obtain ⟨ko, stored0, hko, hdko, rfl⟩ := idxRemove_uniq_ok key d old e1 hrem
    obtain ⟨kv, hkv, rfl⟩ := idxAdd_uniq_ok key (dDel d ko) v e' hadd
    obtain ⟨kv2, hkv2, hcase0⟩ := prepareAdd_uniq_none list key d v (some i) hprep
    rw [hkv] at hkv2
    cases hkv2
    have hcase : dLookup d kv = none ∨ dLookup d kv = some old := by
      rcases hcase0 with hc | ⟨stored, p, hds, hio, hip⟩
      · exact .inl hc
      · cases hip
        rw [pyNorm_coe] at hnorm
        by_cases hp : p < list.length
        · rw [if_pos hp] at hnorm
          cases hnorm
          have hgs : getAt list j = some stored :=
            listIndexOf_getAt list stored j hio
          rw [hold] at hgs
          cases hgs
          exact .inr hds
        · rw [if_neg hp] at hnorm
          exact Option.noConfusion hnorm
    exact entryUniqInv_set list key d v old kv ko j hinv hkv hko hold hcase
  | multi d =>
    obtain ⟨ko, l, l', hko, hl, hl', rfl⟩ := idxRemove_multi_ok key d old e1 hrem
    obtain ⟨kv, hkv, rfl⟩ := idxAdd_multi_ok key (dSet d ko l') v e' hadd
    exact entryMultiInv_set list key d v old kv ko j l l' hinv hkv hko hold hl hl'

/-! ### The mutation loops over all indexes -/

theorem checkAll_forall [DecidableEq Key] [DecidableEq Item]
    (entries : List (Entry Key Item)) (list : List Item) (v : Item)
    (skip : Option Int) (h : checkAll entries list v skip = none) :
    ∀ e ∈ entries, prepareAdd list e v skip = none := by
  induction entries with
  | nil =>
    intro e he
    simp at he
  | cons e0 rest ih =>
    intro e he
    simp only [checkAll] at h
    cases hp : prepareAdd list e0 v skip with
    | some err =>
      rw [hp] at h
      simp at h
    | none =>
      rw [hp] at h
      dsimp only at h
      rcases List.mem_cons.mp he with he' | he'
      · rw [he']
        exact hp
      · exact ih h e he'

theorem checkAll_of_forall [DecidableEq Key] [DecidableEq Item]
    (entries : List (Entry Key Item)) (list : List Item) (v : Item)
    (skip : Option Int)
    (h : ∀ e ∈ entries, prepareAdd list e v skip = none) :
    checkAll entries list v skip = none := by
  induction entries with
  | nil => rfl
  | cons e0 rest ih =>
    simp only [checkAll]
    rw [h e0 (List.mem_cons_self _ _)]
    exact ih (fun e he => h e (.tail _ he))

theorem addAll_ok_get [DecidableEq Key] [DecidableEq Item]
    (entries : List (Entry Key Item)) (v : Item)
    (es' : List (Entry Key Item)) (h : addAll entries v = (es', none)) :
    es'.length = entries.length ∧
      ∀ n e, getAt entries n = some e →
        ∃ e', getAt es' n = some e' ∧ idxAdd e v = .ok e' := by
  induction entries generalizing es' with
  | nil =>
    simp only [addAll, Prod.mk.injEq] at h
    rw [← h.1]
    exact ⟨rfl, by intro n e he; simp [getAt] at he⟩
  | cons e0 rest ih =>
    simp only [addAll] at h
    cases ha : idxAdd e0 v with
    | error err =>
      rw [ha] at h
      simp at h
    | ok e0' =>
      rw [ha] at h
      dsimp only at h
      cases hr : addAll rest v with
      | mk rest' r =>
        rw [hr] at h
        dsimp only at h
        rw [Prod.mk.injEq] at h
        obtain ⟨hes, hrn⟩ := h
        subst hrn
        obtain ⟨hlen, hpt⟩ := ih rest' hr
        rw [← hes]
        refine ⟨by simp [hlen], ?_⟩
        intro n e he
        cases n with
        | zero =>
          simp only [getAt, Option.some.injEq] at he ⊢
          rw [← he]
          exact ⟨e0', rfl, ha⟩
        | succ m =>
          simp only [getAt] at he ⊢
          exact hpt m e he

theorem removeAll_ok_get [DecidableEq Key] [DecidableEq Item]
    (entries : List (Entry Key Item)) (v : Item)
    (es' : List (Entry Key Item)) (h : removeAll entries v = (es', none)) :
    es'.length = entries.length ∧
      ∀ n e, getAt entries n = some e →
        ∃ e', getAt es' n = some e' ∧ idxRemove e v = .ok e' := by
  induction entries generalizing es' with
  | nil =>
    simp only [removeAll, Prod.mk.injEq] at h
    rw [← h.1]
    exact ⟨rfl, by intro n e he; simp [getAt] at he⟩
  | cons e0 rest ih =>
    simp only [removeAll] at h
    cases ha : idxRemove e0 v with
    | error err =>
      rw [ha] at h
      simp at h
    | ok e0' =>
      rw [ha] at h
      dsimp only at h
      cases hr : removeAll rest v with
      | mk rest' r =>
        rw [hr] at h
        dsimp only at h
        rw [Prod.mk.injEq] at h
        obtain ⟨hes, hrn⟩ := h
        subst hrn
        obtain ⟨hlen, hpt⟩ := ih rest' hr
        rw [← hes]
        refine ⟨by simp [hlen], ?_⟩
        intro n e he
        cases n with
        | zero =>
          simp only [getAt, Option.some.injEq] at he ⊢
          rw [← he]
          exact ⟨e0', rfl, ha⟩
        | succ m =>
          simp only [getAt] at he ⊢
          exact hpt m e he

theorem addAll_total [DecidableEq Key] [DecidableEq Item]
    (entries : List (Entry Key Item)) (v : Item)
    (h : ∀ e ∈ entries, ∃ e', idxAdd e v = .ok e') :
    ∃ es', addAll entries v = (es', none) := by
  induction entries with
  | nil => exact ⟨[], rfl⟩
  | cons e0 rest ih =>
    obtain ⟨e0', he0⟩ := h e0 (List.mem_cons_self _ _)
    obtain ⟨rest', hrest⟩ := ih (fun e he => h e (.tail _ he))
    refine ⟨e0' :: rest', ?_⟩
    simp only [addAll]
    rw [he0, hrest]

theorem removeAll_total [DecidableEq Key] [DecidableEq Item]
    (entries : List (Entry Key Item)) (v : Item)
    (h : ∀ e ∈ entries, ∃ e', idxRemove e v = .ok e') :
    ∃ es', removeAll entries v = (es', none) := by
  induction entries with
  | nil => exact ⟨[], rfl⟩
  | cons e0 rest ih =>
    obtain ⟨e0', he0⟩ := h e0 (List.mem_cons_self _ _)
    obtain ⟨rest', hrest⟩ := ih (fun e he => h e (.tail _ he))
    refine ⟨e0' :: rest', ?_⟩
    simp only [removeAll]
    rw [he0, hrest]

/-! ### Success shape of the container operations -/

theorem stInsert_ok [DecidableEq Key] [DecidableEq Item]
    (s s' : IListState Key Item) (i : Int) (v : Item)
    (h : stInsert s i v = (s', none)) :
    checkAll s.idxs s.list v none = none ∧
      ∃ idxs', addAll s.idxs v = (idxs', none) ∧
        s' = ⟨insertAt (pyInsertPos s.list.length i) v s.list, idxs'⟩ := by
  simp only [stInsert] at h
  cases hc : checkAll s.idxs s.list v none with
  | some err =>
    rw [hc] at h
    simp at h
  | none =>
    rw [hc] at h
    dsimp only at h
    cases ha : addAll s.idxs v with
    | mk idxs' r =>
      rw [ha] at h
      cases r with
      | some err => simp at h
      | none =>
        dsimp only at h
        rw [Prod.mk.injEq] at h
        exact ⟨rfl, idxs', rfl, h.1.symm⟩

theorem stSet_ok [DecidableEq Key] [DecidableEq Item]
    (s s' : IListState Key Item) (i : Int) (v : Item)
    (h : stSet s i v = (s', none)) :
    checkAll s.idxs s.list v (some i) = none ∧
      ∃ j old idxs1 idxs2,
        pyNorm s.list.length i = some j ∧ getAt s.list j = some old ∧
        removeAll s.idxs old = (idxs1, none) ∧
        addAll idxs1 v = (idxs2, none) ∧
        s' = ⟨setAt j v s.list, idxs2⟩ := by
  simp only [stSet] at h
  cases hc : checkAll s.idxs s.list v (some i) with
  | some err =>
    rw [hc] at h
    simp at h
  | none =>
    rw [hc] at h
    dsimp only at h
    cases hn : pyNorm s.list.length i with
    | none =>
      rw [hn] at h
      simp at h
    | some j =>
      rw [hn] at h
      dsimp only at h
      cases hg : getAt s.list j with
      | none =>
        rw [hg] at h
        simp at h
      | some old =>
        rw [hg] at h
        dsimp only at h
        cases hr : removeAll s.idxs old with
        | mk idxs1 r1 =>
          rw [hr] at h
          cases r1 with
          | some err => simp at h
          | none =>
            dsimp only at h
            cases ha : addAll idxs1 v with
            | mk idxs2 r2 =>
              rw [ha] at h
              cases r2 with
              | some err => simp at h
              | none =>
                dsimp only at h
                rw [Prod.mk.injEq] at h
                exact ⟨rfl, j, old, idxs1, idxs2, rfl, hg, hr, ha,
                  h.1.symm⟩

theorem stDel_ok [DecidableEq Key] [DecidableEq Item]
    (s s' : IListState Key Item) (i : Int)
    (h : stDel s i = (s', none)) :
    ∃ j old idxs1,
      pyNorm s.list.length i = some j ∧ getAt s.list j = some old ∧
      removeAll s.idxs old = (idxs1, none) ∧
      s' = ⟨removeAt j s.list, idxs1⟩ := by
  simp only [stDel] at h
  cases hn : pyNorm s.list.length i with
  | none =>
    rw [hn] at h
    simp at h
  | some j =>
    rw [hn] at h
    dsimp only at h
    cases hg : getAt s.list j with
    | none =>
      rw [hg] at h
      simp at h
    | some old =>
      rw [hg] at h
      dsimp only at h
      cases hr : removeAll s.idxs old with
      | mk idxs1 r1 =>
        rw [hr] at h
        cases r1 with
        | some err => simp at h
        | none =>
          dsimp only at h
          rw [Prod.mk.injEq] at h
          exact ⟨j, old, idxs1, rfl, hg, hr, h.1.symm⟩

/-! ### Invariant preservation, container level -/

theorem Inv_stInsert [DecidableEq Key] [DecidableEq Item]
    (s s' : IListState Key Item) (i : Int) (v : Item)
    (hinv : Inv s) (h : stInsert s i v = (s', none)) : Inv s' := by
  obtain ⟨hc, idxs', ha, rfl⟩ := stInsert_ok s s' i v h
  intro e' he'
  obtain ⟨n, hn⟩ := (mem_iff_getAt _ _).mp he'
  obtain ⟨hlen, hpt⟩ := addAll_ok_get s.idxs v idxs' ha
  have hlt : n < idxs'.length := getAt_some_lt idxs' n e' hn
  obtain ⟨e, he⟩ := getAt_lt_length s.idxs n (by omega)
  obtain ⟨e'', he'', hok⟩ := hpt n e he
  rw [hn] at he''
  cases he''
  have hmem : e ∈ s.idxs := (mem_iff_getAt _ _).mpr ⟨n, he⟩
  exact entryInv_insert_step s.list e e' v _ (hinv e hmem)
    (checkAll_forall s.idxs s.list v none hc e hmem) hok

theorem Inv_stSet [DecidableEq Key] [DecidableEq Item]
    (s s' : IListState Key Item) (i : Int) (v : Item)
    (hinv : Inv s) (h : stSet s i v = (s', none)) : Inv s' := by
  obtain ⟨hc, j, old, idxs1, idxs2, hn, hg, hr, ha, rfl⟩ := stSet_ok s s' i v h
  intro e' he'
  obtain ⟨n, hn'⟩ := (mem_iff_getAt _ _).mp he'
  obtain ⟨hlen1, hpt1⟩ := removeAll_ok_get s.idxs old idxs1 hr
  obtain ⟨hlen2, hpt2⟩ := addAll_ok_get idxs1 v idxs2 ha
  have hlt : n < idxs2.length := getAt_some_lt idxs2 n e' hn'
  obtain ⟨e, he⟩ := getAt_lt_length s.idxs n (by omega)
  obtain ⟨e1, he1, hok1⟩ := hpt1 n e he
  obtain ⟨e'', he'', hok2⟩ := hpt2 n e1 he1
  rw [hn'] at he''
  cases he''
  have hmem : e ∈ s.idxs := (mem_iff_getAt _ _).mpr ⟨n, he⟩
  exact entryInv_set_step s.list e e1 e' v old i j (hinv e hmem)
    (checkAll_forall s.idxs s.list v (some i) hc e hmem) hn hg hok1 hok2

theorem Inv_stDel [DecidableEq Key] [DecidableEq Item]
    (s s' : IListState Key Item) (i : Int)
    (hinv : Inv s) (h : stDel s i = (s', none)) : Inv s' := by
  obtain ⟨j, old, idxs1, hn, hg, hr, rfl⟩ := stDel_ok s s' i h
  intro e' he'
  obtain ⟨n, hn'⟩ := (mem_iff_getAt _ _).mp he'
  obtain ⟨hlen1, hpt1⟩ := removeAll_ok_get s.idxs old idxs1 hr
  have hlt : n < idxs1.length := getAt_some_lt idxs1 n e' hn'
  obtain ⟨e, he⟩ := getAt_lt_length s.idxs n (by omega)
  obtain ⟨e'', he'', hok⟩ := hpt1 n e he
  rw [hn'] at he''
  cases he''
  have hmem : e ∈ s.idxs := (mem_iff_getAt _ _).mpr ⟨n, he⟩
  exact entryInv_del_step s.list e e' old j (hinv e hmem) hg hok

theorem Inv_init [DecidableEq Key] [DecidableEq Item]
    (s : IListState Key Item) (h : InitState s) : Inv s := by
  obtain ⟨hl, hidx⟩ := h
  intro e he
  have hst := hidx e he
  rw [hl]
  obtain ⟨key, st⟩ := e
  cases st with
  | uniq d =>
    simp only [emptyIdx] at hst
    subst hst
    exact ⟨by simp, by simp, by simp, by simp⟩
  | multi d =>
    simp only [emptyIdx] at hst
    subst hst
    refine ⟨by simp, by simp, ?_, by simp⟩
    intro it k _
    simp [dLookup, cnt]

theorem Reach_inv [DecidableEq Key] [DecidableEq Item]
    (s0 s : IListState Key Item) (h0 : InitState s0) (hr : Reach s0 s) :
    Inv s := by
  induction hr with
  | refl => exact Inv_init s0 h0
  | insert hr hstep ih => exact Inv_stInsert _ _ _ _ ih hstep
  | append hr hstep ih => exact Inv_stInsert _ _ _ _ ih hstep
  | set hr hstep ih => exact Inv_stSet _ _ _ _ ih hstep
  | del hr hstep ih => exact Inv_stDel _ _ _ ih hstep

/-! ### Consequences of the invariant -/

theorem Inv_lookup_self [DecidableEq Key] [DecidableEq Item]
    (s : IListState Key Item) (hinv : Inv s) :
    ∀ e ∈ s.idxs, ∀ it ∈ s.list,
      ∃ k, e.key it = some k ∧ inLookup e.st k it := by
  intro e he it hit
  have hei := hinv e he
  obtain ⟨key, st⟩ := e
  cases st with
  | uniq d =>
    obtain ⟨h1, _, _, _⟩ := hei
    obtain ⟨k, hk, hl⟩ := h1 it hit
    exact ⟨k, hk, hl⟩
  | multi d =>
    obtain ⟨m1, m2, m3, m4⟩ := hei
    have hsome := m1 it hit
    dsimp only at hsome m3
    cases hkv : key it with
    | none => rw [hkv] at hsome; simp at hsome
    | some k =>
      refine ⟨k, hkv, ?_⟩
      have hc := m3 it k hkv
      have hpos : 0 < cnt it s.list := (cnt_pos_iff_mem it s.list).mpr hit
      exact (cnt_pos_iff_mem it _).mp (by omega)

theorem Inv_no_stale [DecidableEq Key] [DecidableEq Item]
    (s : IListState Key Item) (hinv : Inv s) :
    ∀ e ∈ s.idxs, ∀ k it, inLookup e.st k it → it ∈ s.list := by
  intro e he k it hlk
  have hei := hinv e he
  obtain ⟨key, st⟩ := e
  cases st with
  | uniq d =>
    obtain ⟨_, h2, _, _⟩ := hei
    simp only [inLookup] at hlk
    exact (h2 (k, it) (dLookup_mem d k it hlk)).2
  | multi d =>
    obtain ⟨m1, m2, m3, m4⟩ := hei
    simp only [inLookup] at hlk
    cases hld : dLookup d k with
    | none => rw [hld] at hlk; simp at hlk
    | some l =>
      rw [hld] at hlk
      simp only [Option.getD_some] at hlk
      have hkit : key it = some k :=
        m2 (k, l) (dLookup_mem d k l hld) it hlk
      have hc := m3 it k hkit
      rw [hld] at hc
      simp only [Option.getD_some] at hc
      have hpos : 0 < cnt it l := (cnt_pos_iff_mem it l).mpr hlk
      exact (cnt_pos_iff_mem it s.list).mp (by omega)

/-! ### Position helpers -/

theorem pyNorm_nonneg (n : Nat) (i : Int) (j : Nat) (h0 : 0 ≤ i)
    (h : pyNorm n i = some j) : i = (j : Int) ∧ j < n := by
  simp only [pyNorm, if_neg (show ¬(i < 0) by omega)] at h
  by_cases hc : 0 ≤ i ∧ i < (n : Int)
  · rw [if_pos hc] at h
    cases h
    constructor
    · omega
    · omega
  · rw [if_neg hc] at h
    exact Option.noConfusion h

theorem pyInsertPos_ge (n : Nat) (i : Int) (h : (n : Int) ≤ i) :
    pyInsertPos n i = n := by
  simp only [pyInsertPos]
  rw [if_neg (by omega)]
  omega

theorem pyInsertPos_front (n : Nat) (i : Int) (hneg : i < 0)
    (h : i + (n : Int) ≤ 0) : pyInsertPos n i = 0 := by
  simp only [pyInsertPos]
  rw [if_pos hneg]
  omega

theorem getAt_append_cons (l1 l2 : List α) (a : α) :
    getAt (l1 ++ a :: l2) l1.length = some a := by
  induction l1 with
  | nil => rfl
  | cons b t ih => simpa [getAt] using ih

/-! ### Key-function preservation and totality of the index operations -/

theorem idxAdd_key [DecidableEq Key] (e e' : Entry Key Item) (v : Item)
    (h : idxAdd e v = .ok e') : e'.key = e.key := by
  simp only [idxAdd] at h
  cases hk : e.key v with
  | none => rw [hk] at h; simp at h
  | some k =>
    rw [hk] at h
    cases hst : e.st with
    | uniq d => rw [hst] at h; dsimp only at h; cases h; rfl
    | multi d => rw [hst] at h; dsimp only at h; cases h; rfl

theorem idxRemove_key [DecidableEq Key] [DecidableEq Item]
    (e e' : Entry Key Item) (v : Item)
    (h : idxRemove e v = .ok e') : e'.key = e.key := by
  obtain ⟨key, st⟩ := e
  cases st with
  | uniq d =>
    obtain ⟨k, stored, _, _, rfl⟩ := idxRemove_uniq_ok key d v e' h
    rfl
  | multi d =>
    obtain ⟨k, l, l', _, _, _, rfl⟩ := idxRemove_multi_ok key d v e' h
    rfl

theorem idxAdd_total [DecidableEq Key] (e : Entry Key Item) (v : Item)
    (hk : (e.key v).isSome) : ∃ e', idxAdd e v = .ok e' := by
  simp only [idxAdd]
  cases hkv : e.key v with
  | none => rw [hkv] at hk; simp at hk
  | some k =>
    cases hst : e.st with
    | uniq d => exact ⟨_, rfl⟩
    | multi d => exact ⟨_, rfl⟩

theorem idxRemove_total_of_inv [DecidableEq Key] [DecidableEq Item]
    (list : List Item) (e : Entry Key Item) (old : Item)
    (hinv : entryInv list e) (hold : old ∈ list) :
    ∃ e', idxRemove e old = .ok e' := by
  obtain ⟨key, st⟩ := e
  cases st with
  | uniq d =>
    obtain ⟨h1, _, _, _⟩ := hinv
    obtain ⟨ko, hko, hdol⟩ := h1 old hold
    dsimp only at hko
    refine ⟨⟨key, .uniq (dDel d ko)⟩, ?_⟩
    simp only [idxRemove]
    rw [hko]
    dsimp only
    rw [hdol]
  | multi d =>
    obtain ⟨m1, m2, m3, m4⟩ := hinv
    have hsome := m1 old hold
    dsimp only at hsome m3
    cases hko : key old with
    | none => rw [hko] at hsome; simp at hsome
    | some ko =>
      have hc := m3 old ko hko
      have hpos : 0 < cnt old list := (cnt_pos_iff_mem old list).mpr hold
      cases hld : dLookup d ko with
      | none =>
        rw [hld] at hc
        simp only [Option.getD_none, cnt] at hc
        omega
      | some l =>
        rw [hld] at hc
        simp only [Option.getD_some] at hc
        have holdl : old ∈ l := (cnt_pos_iff_mem old l).mp (by omega)
        have hrs := listRemoveFirst_isSome_of_mem l old holdl
        cases hlr : listRemoveFirst l old with
        | none => rw [hlr] at hrs; simp at hrs
        | some l' =>
          refine ⟨⟨key, .multi (dSet d ko l')⟩, ?_⟩
          simp only [idxRemove]
          rw [hko]
          dsimp only
          rw [hld]
          dsimp only
          rw [hlr]

/-! ### Builders: computing an operation from its ingredients -/

theorem stInsert_build [DecidableEq Key] [DecidableEq Item]
    (s : IListState Key Item) (i : Int) (v : Item)
    (idxs' : List (Entry Key Item))
    (hc : checkAll s.idxs s.list v none = none)
    (ha : addAll s.idxs v = (idxs', none)) :
    stInsert s i v =
      (⟨insertAt (pyInsertPos s.list.length i) v s.list, idxs'⟩, none) := by
  simp only [stInsert]
  rw [hc]
  dsimp only
  rw [ha]

theorem stSet_build [DecidableEq Key] [DecidableEq Item]
    (s : IListState Key Item) (i : Int) (v : Item) (j : Nat) (old : Item)
    (idxs1 idxs2 : List (Entry Key Item))
    (hc : checkAll s.idxs s.list v (some i) = none)
    (hn : pyNorm s.list.length i = some j)
    (hg : getAt s.list j = some old)
    (hr : removeAll s.idxs old = (idxs1, none))
    (ha : addAll idxs1 v = (idxs2, none)) :
    stSet s i v = (⟨setAt j v s.list, idxs2⟩, none) := by
  simp only [stSet]
  rw [hc]
  dsimp only
  rw [hn]
  dsimp only
  rw [hg]
  dsimp only
  rw [hr]
  dsimp only
  rw [ha]

theorem stDel_build [DecidableEq Key] [DecidableEq Item]
    (s : IListState Key Item) (i : Int) (j : Nat) (old : Item)
    (idxs1 : List (Entry Key Item))
    (hn : pyNorm s.list.length i = some j)
    (hg : getAt s.list j = some old)
    (hr : removeAll s.idxs old = (idxs1, none)) :
    stDel s i = (⟨removeAt j s.list, idxs1⟩, none) := by
  simp only [stDel]
  rw [hn]
  dsimp only
  rw [hg]
  dsimp only
  rw [hr]

/-! ### The operations never raise an out-of-range error on `insert` -/

theorem prepareAdd_ne_outOfRange [DecidableEq Key] [DecidableEq Item]
    (list : List Item) (e : Entry Key Item) (v : Item) (skip : Option Int) :
    prepareAdd list e v skip ≠ some Err.outOfRange := by
  simp only [prepareAdd]
  obtain ⟨key, st⟩ := e
  cases st with
  | multi d => simp
  | uniq d =>
    dsimp only
    cases key v with
    | none => simp
    | some k =>
      dsimp only
      cases dLookup d k with
      | none => simp
      | some stored =>
        dsimp only
        cases listIndexOf list stored with
        | none => simp
        | some p =>
          dsimp only
          by_cases hsk : skip = some (p : Int)
          · rw [if_pos hsk]
            simp
          · rw [if_neg hsk]
            simp

theorem checkAll_ne_outOfRange [DecidableEq Key] [DecidableEq Item]
    (entries : List (Entry Key Item)) (list : List Item) (v : Item)
    (skip : Option Int) :
    checkAll entries list v skip ≠ some Err.outOfRange := by
  induction entries with
  | nil => simp [checkAll]
  | cons e0 rest ih =>
    simp only [checkAll]
    cases hp : prepareAdd list e0 v skip with
    | some err =>
      dsimp only
      intro hcontra
      cases hcontra
      exact prepareAdd_ne_outOfRange list e0 v skip hp
    | none => exact ih

theorem idxAdd_ne_outOfRange [DecidableEq Key] (e : Entry Key Item)
    (v : Item) (err : Err) (h : idxAdd e v = .error err) :
    err ≠ Err.outOfRange := by
  obtain ⟨key, st⟩ := e
  simp only [idxAdd] at h
  cases hk : key v with
  | none =>
    rw [hk] at h
    dsimp only at h
    cases h
    simp
  | some k =>
    rw [hk] at h
    dsimp only at h
    cases st with
    | uniq d => exact Except.noConfusion h
    | multi d => exact Except.noConfusion h

theorem addAll_ne_outOfRange [DecidableEq Key]
    (entries : List (Entry Key Item)) (v : Item) :
    (addAll entries v).2 ≠ some Err.outOfRange := by
  induction entries with
  | nil => simp [addAll]
  | cons e0 rest ih =>
    simp only [addAll]
    cases ha : idxAdd e0 v with
    | error err =>
      dsimp only
      intro hcontra
      cases hcontra
      exact idxAdd_ne_outOfRange e0 v _ ha rfl
    | ok e0' =>
      dsimp only
      cases hr : addAll rest v with
      | mk rest' r =>
        dsimp only
        rw [hr] at ih
        exact ih

/-! ### Table entries -/

theorem mem_entriesFrom [DecidableEq V] (schema : List FieldKind)
    (p0 : Nat) (e : Entry V (List V)) (he : e ∈ entriesFrom p0 schema) :
    ∃ q fk, getAt schema q = some fk ∧ colEntry (p0 + q) fk = some e := by
  induction schema generalizing p0 with
  | nil => simp [entriesFrom] at he
  | cons fk0 rest ih =>
    simp only [entriesFrom, List.mem_append] at he
    rcases he with he | he
    · refine ⟨0, fk0, rfl, ?_⟩
      cases hce : colEntry (V := V) p0 fk0 with
      | none => rw [hce] at he; simp at he
      | some e0 =>
        rw [hce] at he
        simp only [Option.toList_some, List.mem_singleton] at he
        rw [he, Nat.add_zero]
        exact hce
    · obtain ⟨q, fk, hq, hc⟩ := ih (p0 + 1) he
      refine ⟨q + 1, fk, hq, ?_⟩
      have harith : p0 + (q + 1) = p0 + 1 + q := by omega
      rw [harith]
      exact hc

/-! ## The claims -/

/-- C1: the claim states that every failed mutation is a no-op on
inspectable state.  The code violates it: `MultiIndex.prepare_add` returns
`True` without extracting the key, so a `KeyError` from `process_item` can
first fire inside `_add_to_indexes`, after earlier indexes were already
mutated.  Concretely, on a fresh container with two multi key indexes
(`a = MultiKeyIndex(default=True)`, `b = MultiKeyIndex()`), `append({})`
raises `KeyError` from index `b` but leaves index `a` holding the item:
afterwards index `a` has length 1 and its bucket contains the item, while
the sequence is still empty. -/
theorem c1_failed_append_mutates_index :
    (stAppend (⟨[], [⟨fun _ => some 0, IdxState.multi []⟩,
        ⟨fun _ => none, IdxState.multi []⟩]⟩ : IListState Nat Nat) 7).2
      = some Err.missingField ∧
    (stAppend (⟨[], [⟨fun _ => some 0, IdxState.multi []⟩,
        ⟨fun _ => none, IdxState.multi []⟩]⟩ : IListState Nat Nat) 7).1.list
      = [] ∧
    ((stAppend (⟨[], [⟨fun _ => some 0, IdxState.multi []⟩,
        ⟨fun _ => none, IdxState.multi []⟩]⟩ : IListState Nat Nat) 7).1.idxs.map
      boundLen) = [1, 0] ∧
    ((⟨[], [⟨fun _ => some 0, IdxState.multi []⟩,
        ⟨fun _ => none, IdxState.multi []⟩]⟩ : IListState Nat Nat).idxs.map
      boundLen) = [0, 0] := by
  exact ⟨rfl, rfl, rfl, rfl⟩

/-- C3 counterexample: on a one-element container with a unique index,
`set(3, item)` with an out-of-range position but a colliding key fails
with the uniqueness `ValueError`, not with `IndexError`, because
`__setitem__` runs `self._check(value, skip=i)` before its bounds check.
The claim as stated (always `IndexOutOfRangeError`) is therefore false. -/
theorem c3_counterexample :
    (stSet (⟨[5], [⟨fun n => some n, IdxState.uniq [(5, 5)]⟩]⟩ :
        IListState Nat Nat) 3 5).2 = some Err.uniqueness ∧
    some Err.uniqueness ≠ some Err.outOfRange ∧
    pyNorm 1 3 = none := by
  refine ⟨rfl, ?_, rfl⟩
  intro h
  cases h

/-- C3 (amended): `delete` on an out-of-range position fails with
`IndexOutOfRangeError` and leaves the state unchanged; `set` on an
out-of-range position always fails and leaves the state unchanged, and the
error is `IndexOutOfRangeError` whenever the validation phase passes
(otherwise the validation error — e.g. a uniqueness violation — is raised
instead, since `_check` runs before the bounds check). -/
theorem c3_out_of_range_noop [DecidableEq Key] [DecidableEq Item]
    (s : IListState Key Item) (i : Int) (v : Item)
    (hout : pyNorm s.list.length i = none) :
    stDel s i = (s, some Err.outOfRange) ∧
    (stSet s i v).1 = s ∧
    (stSet s i v).2.isSome ∧
    (checkAll s.idxs s.list v (some i) = none →
      stSet s i v = (s, some Err.outOfRange)) := by
  refine ⟨?_, ?_, ?_, ?_⟩
  · simp only [stDel]
    rw [hout]
  · simp only [stSet]
    cases hc : checkAll s.idxs s.list v (some i) with
    | some err => rfl
    | none =>
      dsimp only
      rw [hout]
  · simp only [stSet]
    cases hc : checkAll s.idxs s.list v (some i) with
    | some err => rfl
    | none =>
      dsimp only
      rw [hout]
      rfl
  · intro hc
    simp only [stSet]
    rw [hc]
    dsimp only
    rw [hout]

/-- C3 witness: a concrete out-of-range `set`/`delete` on a one-element
container with a fresh unique index is rejected with `outOfRange` and
leaves the state unchanged. -/
theorem c3_witness :
    pyNorm 1 3 = none ∧
    stDel (⟨[5], [⟨fun n => some n, IdxState.uniq [(5, 5)]⟩]⟩ :
      IListState Nat Nat) 3 =
      (⟨[5], [⟨fun n => some n, IdxState.uniq [(5, 5)]⟩]⟩, some Err.outOfRange) :=
  ⟨rfl, (c3_out_of_range_noop
    (⟨[5], [⟨fun n => some n, IdxState.uniq [(5, 5)]⟩]⟩ : IListState Nat Nat)
    3 9 rfl).1⟩

/-- C4: the claim states that a `BoundIndex` lookup on an absent key
returns an empty sequence (without raising) when the index is a multi
index.  The code contradicts this and its own test-suite
(`test_indexes` expects `list_.brave[None] == []`):
`BoundIndex.__getitem__` is `return self._dict[key]`, which raises
`KeyError` for an absent key on both index kinds, and never calls
`process_result`.  Here the `brave` scenario: a multi index whose dict
holds keys `True` and `False`; looking up `None` raises `KeyError`
(= `keyNotFound`) instead of yielding an empty result.  The unique-index
half of the claim does hold, also shown below. -/
theorem c4_multi_absent_key_raises :
    boundGet (⟨fun n => some (if n = 2 then some false else some true),
      IdxState.multi [(some true, [0, 1]), (some false, [2])]⟩ :
        Entry (Option Bool) Nat) none = .error Err.keyNotFound ∧
    (.error Err.keyNotFound :
        Except Err (LookupResult (Option Bool) Nat)) ≠ .ok (.many []) ∧
    boundGet (⟨fun n => some n, IdxState.uniq [(5, 5)]⟩ : Entry Nat Nat) 6
      = .error Err.keyNotFound := by
  refine ⟨rfl, ?_, rfl⟩
  intro h
  cases h

/-- C7: the claim states that a multi-index lookup result is a read-only
view, never the live internal list.  The code contradicts this and its own
comment (`MultiIndex.process_result` exists "to prevent accidental
modification" but is never called): `BoundIndex.__getitem__` returns
`self._dict[key]`, the internal bucket itself.  In the model the lookup
yields exactly the stored bucket value, with no wrapping applied. -/
theorem c7_lookup_returns_live_list :
    boundGet (⟨fun _ => some 0, IdxState.multi [(0, [5, 7])]⟩ :
      Entry Nat Nat) 0 = .ok (.many [5, 7]) ∧
    dLookup [(0, [5, 7])] 0 = some [5, 7] := ⟨rfl, rfl⟩

/-- C2: consistency invariant: after any sequence of successful mutations
starting from an empty container, for every item currently in the
sequence and every declared index, looking up that item's extracted key
in the index's dict yields that item (unique) or a bucket containing it
(multi); and no index contains an entry for an item that is not currently
in the sequence. -/
theorem c2_consistency [DecidableEq Key] [DecidableEq Item]
    (s0 s : IListState Key Item) (h0 : InitState s0) (hr : Reach s0 s) :
    (∀ e ∈ s.idxs, ∀ it ∈ s.list,
      ∃ k, e.key it = some k ∧ inLookup e.st k it) ∧
    (∀ e ∈ s.idxs, ∀ k it, inLookup e.st k it → it ∈ s.list) := by
  have hinv := Reach_inv s0 s h0 hr
  exact ⟨Inv_lookup_self s hinv, Inv_no_stale s hinv⟩

/-- C2 witness: a fresh container with one unique and one multi index,
after one successful `append`, satisfies the consistency conclusion. -/
theorem c2_witness :
    InitState (⟨[], [⟨fun n => some n, IdxState.uniq []⟩,
        ⟨fun _ => some 0, IdxState.multi []⟩]⟩ : IListState Nat Nat) ∧
    ((∀ e ∈ ([⟨fun n => some n, IdxState.uniq [(5, 5)]⟩,
        ⟨fun _ => some 0, IdxState.multi [(0, [5])]⟩] :
          List (Entry Nat Nat)), ∀ it ∈ [5],
        ∃ k, e.key it = some k ∧ inLookup e.st k it) ∧
      (∀ e ∈ ([⟨fun n => some n, IdxState.uniq [(5, 5)]⟩,
        ⟨fun _ => some 0, IdxState.multi [(0, [5])]⟩] :
          List (Entry Nat Nat)), ∀ k it, inLookup e.st k it → it ∈ [5])) := by
  have h0 : InitState (⟨[], [⟨fun n => some n, IdxState.uniq []⟩,
      ⟨fun _ => some 0, IdxState.multi []⟩]⟩ : IListState Nat Nat) := by
    refine ⟨rfl, ?_⟩
    intro e he
    rcases List.mem_cons.mp he with h | h
    · rw [h]
      rfl
    · rcases List.mem_cons.mp h with h' | h'
      · rw [h']
        rfl
      · simp at h'
  exact ⟨h0, c2_consistency _
    (⟨[5], [⟨fun n => some n, IdxState.uniq [(5, 5)]⟩,
      ⟨fun _ => some 0, IdxState.multi [(0, [5])]⟩]⟩ : IListState Nat Nat)
    h0 (Reach.append .refl rfl)⟩

/-- C10: `insert(i, item)` never fails with an out-of-range error for any
integer position; on success, a position at or past the current length
appends at the end, a negative position at or beyond the front inserts at
the beginning, and every index stays consistent with the resulting
sequence (the container invariant is preserved). -/
theorem c10_insert_any_position [DecidableEq Key] [DecidableEq Item]
    (s : IListState Key Item) (i : Int) (v : Item) (hinv : Inv s) :
    (stInsert s i v).2 ≠ some Err.outOfRange ∧
    (∀ s', stInsert s i v = (s', none) →
      ((s.list.length : Int) ≤ i → s'.list = s.list ++ [v]) ∧
      (i < 0 → i + (s.list.length : Int) ≤ 0 → s'.list = v :: s.list) ∧
      Inv s') := by
  constructor
  · simp only [stInsert]
    cases hc : checkAll s.idxs s.list v none with
    | some err =>
      dsimp only
      intro h
      cases h
      exact checkAll_ne_outOfRange s.idxs s.list v none hc
    | none =>
      dsimp only
      cases ha : addAll s.idxs v with
      | mk idxs' r =>
        cases r with
        | some err =>
          dsimp only
          intro h
          cases h
          have hne := addAll_ne_outOfRange s.idxs v
          rw [ha] at hne
          exact hne rfl
        | none =>
          dsimp only
          simp
  · intro s' h
    have hInv' := Inv_stInsert s s' i v hinv h
    obtain ⟨hc, idxs', ha, rfl⟩ := stInsert_ok s s' i v h
    refine ⟨?_, ?_, hInv'⟩
    · intro hge
      dsimp only
      rw [pyInsertPos_ge s.list.length i hge]
      exact insertAt_ge_length v s.list.length s.list (le_refl _)
    · intro hneg hfront
      dsimp only
      rw [pyInsertPos_front s.list.length i hneg hfront]
      rfl

/-- C10 witness: inserting at position 99 in a one-element container
raises nothing and appends at the end. -/
theorem c10_witness :
    (stInsert (⟨[5], [⟨fun n => some n, IdxState.uniq [(5, 5)]⟩]⟩ :
      IListState Nat Nat) 99 7).2 ≠ some Err.outOfRange ∧
    (⟨[5, 7], [⟨fun n => some n, IdxState.uniq [(5, 5), (7, 7)]⟩]⟩ :
      IListState Nat Nat).list = [5] ++ [7] := by
  have h0 : InitState (⟨[], [⟨fun n => some n, IdxState.uniq []⟩]⟩ :
      IListState Nat Nat) := by
    refine ⟨rfl, ?_⟩
    intro e he
    rcases List.mem_cons.mp he with h | h
    · rw [h]
      rfl
    · simp at h
  have hinv : Inv (⟨[5], [⟨fun n => some n, IdxState.uniq [(5, 5)]⟩]⟩ :
      IListState Nat Nat) :=
    Inv_stInsert _ _ 0 5 (Inv_init _ h0) rfl
  have hthm := c10_insert_any_position
    (⟨[5], [⟨fun n => some n, IdxState.uniq [(5, 5)]⟩]⟩ : IListState Nat Nat)
    99 7 hinv
  exact ⟨hthm.1, (hthm.2 _ rfl).1 (by decide)⟩

/-- C5 counterexample: the claim quantifies over every position at which
`get(i)` succeeds, but for a negative position the skip comparison
`self._list.index(stored) == skip` can never hold (`list.index` returns a
non-negative position while `skip` is the raw negative `i`).  On `[5]`
with a unique identity-key index, `get(-1)` succeeds and returns `5`, yet
`set(-1, 5)` — the new item's unique key equals that of the item at
position `-1` — fails with the uniqueness `ValueError` instead of
succeeding. -/
theorem c5_counterexample :
    pyNorm 1 (-1) = some 0 ∧
    getAt [5] 0 = some (5 : Nat) ∧
    (stSet (⟨[5], [⟨fun n => some n, IdxState.uniq [(5, 5)]⟩]⟩ :
      IListState Nat Nat) (-1) 5).2 = some Err.uniqueness := by
  exact ⟨rfl, rfl, rfl⟩

/-- C5 (amended): restricted to non-negative positions.  (1) For a unique
index satisfying its invariant, `validate_add(item, skip=i)` with
`0 ≤ i` in range fails with `UniquenessViolation` exactly when the item's
extracted key already maps to a different item than the one located at
position `i`, and passes exactly when the key is absent or maps to that
very item.  (2) For multi indexes `validate_add` always succeeds.
(3) Consequently `set(i, new_item)` succeeds for every in-range
non-negative `i` whenever every index can extract a key from `new_item`
and `new_item`'s keys on the unique indexes equal those of the item
currently at position `i`. -/
theorem c5_validate_add {Key Item : Type} [DecidableEq Key]
    [DecidableEq Item] :
    (∀ (list : List Item) (key : Item → Option Key) (d : List (Key × Item))
       (v old : Item) (kv : Key) (i : Int) (j : Nat),
       entryUniqInv list key d → key v = some kv → 0 ≤ i →
       pyNorm list.length i = some j → getAt list j = some old →
       ((prepareAdd list ⟨key, .uniq d⟩ v (some i) = some Err.uniqueness ↔
           ∃ stored, dLookup d kv = some stored ∧ stored ≠ old) ∧
        (prepareAdd list ⟨key, .uniq d⟩ v (some i) = none ↔
           (dLookup d kv = none ∨ dLookup d kv = some old)))) ∧
    (∀ (list : List Item) (key : Item → Option Key)
       (d : List (Key × List Item)) (v : Item) (skip : Option Int),
       prepareAdd list ⟨key, .multi d⟩ v skip = none) ∧
    (∀ (s : IListState Key Item) (i : Int) (j : Nat) (v old : Item),
       Inv s → 0 ≤ i → pyNorm s.list.length i = some j →
       getAt s.list j = some old →
       (∀ e ∈ s.idxs, (e.key v).isSome) →
       (∀ e ∈ s.idxs, ∀ d, e.st = IdxState.uniq d → e.key v = e.key old) →
       ∃ s', stSet s i v = (s', none)) := by
  refine ⟨?_, ?_, ?_⟩
  · intro list key d v old kv i j hinv hk h0 hn hold
    obtain ⟨hij, hjn⟩ := pyNorm_nonneg list.length i j h0 hn
    obtain ⟨h1, h2, h3, h4⟩ := hinv
    simp only [prepareAdd]
    rw [hk]
    dsimp only
    cases hld : dLookup d kv with
    | none =>
      dsimp only
      constructor
      · constructor
        · intro h
          exact Option.noConfusion h
        · rintro ⟨stored, hs, _⟩
          exact Option.noConfusion hs
      · simp
    | some stored =>
      dsimp only
      have hsl : stored ∈ list :=
        (h2 (kv, stored) (dLookup_mem d kv stored hld)).2
      have hio := listIndexOf_isSome_of_mem list stored hsl
      cases hiop : listIndexOf list stored with
      | none =>
        rw [hiop] at hio
        simp at hio
      | some p =>
        dsimp only
        have hgp : getAt list p = some stored :=
          listIndexOf_getAt list stored p hiop
        by_cases hso : stored = old
        · have hpj : p = j := by
            subst hso
            have hthis := listIndexOf_of_getAt_nodup list stored j h4 hold
            rw [hiop] at hthis
            cases hthis
            rfl
          rw [if_pos (by rw [hij, hpj])]
          constructor
          · constructor
            · intro h
              exact Option.noConfusion h
            · rintro ⟨stored', hs', hne⟩
              cases hs'
              exact absurd hso hne
          · constructor
            · intro _
              right
              rw [hso]
            · intro _
              rfl
        · have hpj : p ≠ j := by
            intro hpj
            rw [hpj, hold] at hgp
            cases hgp
            exact hso rfl
          rw [if_neg (by
            intro hcontra
            rw [hij] at hcontra
            have hjp : (j : Int) = (p : Int) := Option.some.inj hcontra
            exact hpj (show p = j by omega))]
          constructor
          · constructor
            · intro _
              exact ⟨stored, rfl, hso⟩
            · intro _
              rfl
          · constructor
            · intro h
              exact Option.noConfusion h
            · rintro (h | h)
              · exact Option.noConfusion h
              · cases h
                exact absurd rfl hso
  · intro list key d v skip
    rfl
  · intro s i j v old hinv h0 hn hold hsome hunieq
    have holdmem : old ∈ s.list := getAt_mem s.list j hold
    obtain ⟨hij, hjn⟩ := pyNorm_nonneg s.list.length i j h0 hn
    have hc : checkAll s.idxs s.list v (some i) = none := by
      apply checkAll_of_forall
      intro e he
      obtain ⟨key, st⟩ := e
      cases st with
      | multi d => rfl
      | uniq d =>
        have hinve := hinv _ he
        obtain ⟨h1, h2, h3, h4⟩ := hinve
        obtain ⟨ko, hko, hdol⟩ := h1 old holdmem
        dsimp only at hko
        have hkv : key v = some ko := by
          have := hunieq _ he d rfl
          dsimp only at this
          rw [this, hko]
        have hio : listIndexOf s.list old = some j :=
          listIndexOf_of_getAt_nodup s.list old j h4 hold
        simp only [prepareAdd]
        rw [hkv]
        dsimp only
        rw [hdol]
        dsimp only
        rw [hio]
        dsimp only
        rw [if_pos (by rw [hij])]
    obtain ⟨idxs1, hr⟩ := removeAll_total s.idxs old
      (fun e he => idxRemove_total_of_inv s.list e old (hinv e he) holdmem)
    obtain ⟨hlen1, hpt1⟩ := removeAll_ok_get s.idxs old idxs1 hr
    obtain ⟨idxs2, ha⟩ := addAll_total idxs1 v (by
      intro e1 he1
      obtain ⟨n, hn1⟩ := (mem_iff_getAt idxs1 e1).mp he1
      have hlt : n < idxs1.length := getAt_some_lt idxs1 n e1 hn1
      obtain ⟨e, he⟩ := getAt_lt_length s.idxs n (by omega)
      obtain ⟨e1', he1', hok⟩ := hpt1 n e he
      rw [hn1] at he1'
      cases he1'
      have hkeq : e1.key = e.key := idxRemove_key e e1 old hok
      exact idxAdd_total e1 v (by
        rw [hkeq]
        exact hsome e ((mem_iff_getAt s.idxs e).mpr ⟨n, he⟩)))
    exact ⟨_, stSet_build s i v j old idxs1 idxs2 hc hn hold hr ha⟩

/-- C5 witness: on a one-element container holding the pair `(5, 0)`
under a unique first-component index, `set(0, (5, 1))` — a different item
with the same unique key — succeeds. -/
theorem c5_witness :
    (0 : Int) ≤ 0 ∧
    pyNorm 1 0 = some 0 ∧
    getAt [((5, 0) : Nat × Nat)] 0 = some (5, 0) ∧
    ∃ s', stSet
      (⟨[(5, 0)], [⟨fun p => some p.1, IdxState.uniq [(5, (5, 0))]⟩]⟩ :
        IListState Nat (Nat × Nat)) 0 (5, 1) = (s', none) := by
  have h0 : InitState (⟨[], [⟨fun p => some p.1, IdxState.uniq []⟩]⟩ :
      IListState Nat (Nat × Nat)) := by
    refine ⟨rfl, ?_⟩
    intro e he
    rcases List.mem_cons.mp he with h | h
    · rw [h]
      rfl
    · simp at h
  have hinv : Inv
      (⟨[(5, 0)], [⟨fun p => some p.1, IdxState.uniq [(5, (5, 0))]⟩]⟩ :
        IListState Nat (Nat × Nat)) :=
    Inv_stInsert _ _ 0 (5, 0) (Inv_init _ h0) rfl
  refine ⟨by decide, rfl, rfl, ?_⟩
  refine c5_validate_add.2.2 _ 0 0 (5, 1) (5, 0) hinv (by decide) rfl rfl
    ?_ ?_
  · intro e he
    rcases List.mem_cons.mp he with h | h
    · rw [h]
      rfl
    · simp at h
  · intro e he d hd
    rcases List.mem_cons.mp he with h | h
    · rw [h]
    · simp at h

/-- C6: multi-index order preservation: for a multi index whose bucket for
key `k` is empty, appending distinct items `A` then `B` that both extract
to `k` makes the bucket for `k` exactly `[A, B]` in that order; and the
subsequent `delete` of `A`'s position succeeds and leaves the bucket
`[B]`. -/
theorem c6_multi_order [DecidableEq Key] [DecidableEq Item]
    (s s1 s2 : IListState Key Item) (n : Nat) (key : Item → Option Key)
    (d : List (Key × List Item)) (A B : Item) (k : Key)
    (hinv : Inv s)
    (hn : getAt s.idxs n = some ⟨key, .multi d⟩)
    (hkA : key A = some k) (hkB : key B = some k) (hAB : A ≠ B)
    (hbucket : (dLookup d k).getD [] = [])
    (h1 : stAppend s A = (s1, none))
    (h2 : stAppend s1 B = (s2, none)) :
    (∃ d2, getAt s2.idxs n = some ⟨key, .multi d2⟩ ∧
        dLookup d2 k = some [A, B]) ∧
    ∃ s3, stDel s2 (s.list.length : Int) = (s3, none) ∧
      ∃ d3, getAt s3.idxs n = some ⟨key, .multi d3⟩ ∧
        dLookup d3 k = some [B] := by
  have hinv1 : Inv s1 := Inv_stInsert s s1 _ A hinv h1
  have hinv2 : Inv s2 := Inv_stInsert s1 s2 _ B hinv1 h2
  obtain ⟨hc1, idxs1, ha1, hs1⟩ := stInsert_ok s s1 _ A h1
  obtain ⟨hc2, idxs2, ha2, hs2⟩ := stInsert_ok s1 s2 _ B h2
  have hlist1 : s1.list = s.list ++ [A] := by
    rw [hs1]
    dsimp only
    rw [pyInsertPos_ge s.list.length _ (le_refl _)]
    exact insertAt_ge_length A s.list.length s.list (le_refl _)
  have hlist2 : s2.list = s.list ++ [A, B] := by
    rw [hs2]
    dsimp only
    rw [pyInsertPos_ge s1.list.length _ (le_refl _)]
    rw [insertAt_ge_length B s1.list.length s1.list (le_refl _), hlist1,
      List.append_assoc]
    rfl
  have hidxs1 : s1.idxs = idxs1 := by rw [hs1]
  have hidxs2 : s2.idxs = idxs2 := by rw [hs2]
  obtain ⟨hlen1, hpt1⟩ := addAll_ok_get s.idxs A idxs1 ha1
  obtain ⟨e1, he1, hok1⟩ := hpt1 n _ hn
  have he1v : e1 = ⟨key, .multi (dSet d k [A])⟩ := by
    have hcomp : idxAdd (⟨key, .multi d⟩ : Entry Key Item) A =
        .ok ⟨key, .multi (dSet d k [A])⟩ := by
      simp only [idxAdd]
      rw [hkA]
      dsimp only
      rw [hbucket]
      simp
    rw [hcomp] at hok1
    exact (Except.ok.inj hok1).symm
  subst he1v
  rw [← hidxs1] at he1
  obtain ⟨hlen2, hpt2⟩ := addAll_ok_get s1.idxs B idxs2 (hidxs1 ▸ ha2)
  obtain ⟨e2, he2, hok2⟩ := hpt2 n _ he1
  have he2v : e2 = ⟨key, .multi (dSet (dSet d k [A]) k [A, B])⟩ := by
    have hcomp : idxAdd (⟨key, .multi (dSet d k [A])⟩ : Entry Key Item) B =
        .ok ⟨key, .multi (dSet (dSet d k [A]) k [A, B])⟩ := by
      simp only [idxAdd]
      rw [hkB]
      dsimp only
      rw [dLookup_dSet_self]
      rfl
    rw [hcomp] at hok2
    exact (Except.ok.inj hok2).symm
  subst he2v
  rw [← hidxs2] at he2
  have hd2 : dLookup (dSet (dSet d k [A]) k [A, B]) k = some [A, B] :=
    dLookup_dSet_self _ _ _
  refine ⟨⟨_, he2, hd2⟩, ?_⟩
  have hAmem : A ∈ s2.list := by
    rw [hlist2]
    exact List.mem_append.mpr (.inr (List.mem_cons_self _ _))
  obtain ⟨idxs3, hr3⟩ := removeAll_total s2.idxs A
    (fun e he => idxRemove_total_of_inv s2.list e A (hinv2 e he) hAmem)
  have hlen2' : s2.list.length = s.list.length + 2 := by
    rw [hlist2]
    simp
  have hnorm : pyNorm s2.list.length (s.list.length : Int)
      = some s.list.length := by
    rw [pyNorm_coe, if_pos (by omega)]
  have hgetA : getAt s2.list s.list.length = some A := by
    rw [hlist2]
    exact getAt_append_cons s.list [B] A
  have hdel := stDel_build s2 (s.list.length : Int) s.list.length A idxs3
    hnorm hgetA hr3
  refine ⟨_, hdel, ?_⟩
  obtain ⟨hlen3, hpt3⟩ := removeAll_ok_get s2.idxs A idxs3 hr3
  obtain ⟨e3, he3, hok3⟩ := hpt3 n _ he2
  have he3v : e3 = ⟨key, .multi (dSet (dSet (dSet d k [A]) k [A, B]) k [B])⟩ := by
    have hcomp : idxRemove
        (⟨key, .multi (dSet (dSet d k [A]) k [A, B])⟩ : Entry Key Item) A =
        .ok ⟨key, .multi (dSet (dSet (dSet d k [A]) k [A, B]) k [B])⟩ := by
      simp only [idxRemove]
      rw [hkA]
      dsimp only
      rw [hd2]
      dsimp only
      simp [listRemoveFirst]
    rw [hcomp] at hok3
    exact (Except.ok.inj hok3).symm
  subst he3v
  exact ⟨_, he3, dLookup_dSet_self _ _ _⟩

/-- C6 witness: appending `1` then `2` (sharing key `0`) to a fresh
container with one multi index yields bucket `[1, 2]`, and deleting
position 0 (item `1`) yields bucket `[2]`. -/
theorem c6_witness :
    (1 : Nat) ≠ 2 ∧
    ((∃ d2, getAt (⟨[1, 2], [⟨fun _ => some 0,
          IdxState.multi [(0, [1, 2])]⟩]⟩ :
        IListState Nat Nat).idxs 0
          = some ⟨fun _ => some 0, IdxState.multi d2⟩ ∧
        dLookup d2 0 = some [1, 2]) ∧
      ∃ s3, stDel (⟨[1, 2], [⟨fun _ => some 0,
          IdxState.multi [(0, [1, 2])]⟩]⟩ : IListState Nat Nat) (0 : Int)
          = (s3, none) ∧
        ∃ d3, getAt s3.idxs 0 = some ⟨fun _ => some 0, IdxState.multi d3⟩ ∧
          dLookup d3 0 = some [2]) := by
  have h0 : InitState (⟨[], [⟨fun _ => some 0, IdxState.multi []⟩]⟩ :
      IListState Nat Nat) := by
    refine ⟨rfl, ?_⟩
    intro e he
    rcases List.mem_cons.mp he with h | h
    · rw [h]
      rfl
    · simp at h
  refine ⟨by decide, ?_⟩
  exact c6_multi_order
    (⟨[], [⟨fun _ => some 0, IdxState.multi []⟩]⟩ : IListState Nat Nat)
    (⟨[1], [⟨fun _ => some 0, IdxState.multi [(0, [1])]⟩]⟩ :
      IListState Nat Nat)
    (⟨[1, 2], [⟨fun _ => some 0, IdxState.multi [(0, [1, 2])]⟩]⟩ :
      IListState Nat Nat)
    0 (fun _ => some 0) [] 1 2 0 (Inv_init _ h0) rfl rfl rfl (by decide)
    rfl rfl rfl

/-- C8: an `Unindexed` field kind is supported: its values are carried
positionally in every row (a successful append stores the whole row,
unindexed positions included), and no declared index's key extractor ever
reads an unindexed position — two rows that agree everywhere except at
the unindexed position are indistinguishable to every key extractor, so
the field never participates in any index.  (The `Unindexed` class itself
is modelled from the spec, being absent from `src/indexed_list.py`.) -/
theorem c8_unindexed_field [DecidableEq V] (schema : List FieldKind)
    (p : Nat) (hp : getAt schema p = some FieldKind.unindexed) :
    (∀ e ∈ tableEntries (V := V) schema, ∀ r1 r2 : List V,
      (∀ q, q ≠ p → getAt r1 q = getAt r2 q) → e.key r1 = e.key r2) ∧
    (∀ (s s' : IListState V (List V)) (r : List V),
      stAppend s r = (s', none) → s'.list = s.list ++ [r]) := by
  constructor
  · intro e he r1 r2 hagree
    obtain ⟨q, fk, hq, hc⟩ := mem_entriesFrom schema 0 e he
    rw [Nat.zero_add] at hc
    have hqp : q ≠ p := by
      intro hqp
      rw [hqp] at hq
      rw [hp] at hq
      cases hq
      simp [colEntry] at hc
    cases fk with
    | uniqueCol =>
      simp only [colEntry, Option.some.injEq] at hc
      rw [← hc]
      exact hagree q hqp
    | multiCol =>
      simp only [colEntry, Option.some.injEq] at hc
      rw [← hc]
      exact hagree q hqp
    | unindexed => simp [colEntry] at hc
  · intro s s' r h
    obtain ⟨hc, idxs', ha, rfl⟩ := stInsert_ok s s' _ r h
    dsimp only
    rw [pyInsertPos_ge s.list.length _ (le_refl _)]
    exact insertAt_ge_length r s.list.length s.list (le_refl _)

/-- C8 witness: on the schema `[uniqueCol, unindexed]`, appending the row
`[5, 9]` stores it whole (the unindexed `9` included), and the two rows
`[5, 0]` / `[5, 9]`, differing only at the unindexed position, extract
the same key on every declared index. -/
theorem c8_witness :
    getAt [FieldKind.uniqueCol, FieldKind.unindexed] 1
      = some FieldKind.unindexed ∧
    (⟨[[5, 9]], [⟨fun row => getAt row 0, IdxState.uniq [(5, [5, 9])]⟩]⟩ :
      IListState Nat (List Nat)).list
      = (tableInit (V := Nat)
          [FieldKind.uniqueCol, FieldKind.unindexed]).list ++ [[5, 9]] ∧
    (∀ e ∈ tableEntries (V := Nat)
        [FieldKind.uniqueCol, FieldKind.unindexed],
      e.key [5, 0] = e.key [5, 9]) := by
  have hthm := c8_unindexed_field (V := Nat)
    [FieldKind.uniqueCol, FieldKind.unindexed] 1 rfl
  refine ⟨rfl, hthm.2 _ _ [5, 9] rfl, ?_⟩
  intro e he
  refine hthm.1 e he [5, 0] [5, 9] ?_
  intro q hq
  match q with
  | 0 => rfl
  | 1 => exact absurd rfl hq
  | (n + 2) => rfl

/-- C9: per-instance index isolation: creating two instances allocates
distinct references whose index state is fresh and empty; every mutation
(`insert`, `set`, `delete`) performed on one instance leaves the other
instance's stored state — its sequence and every bound index's dict, and
hence all its lengths, keys and lookup results — unchanged, because each
instance's key maps live in its own `BoundIndex`es, not on the shared
class-level `Index` descriptors. -/
theorem c9_instance_isolation [DecidableEq Key] [DecidableEq Item]
    (h0 h1 h2 : Heap Key Item) (sp1 sp2 : List (IdxSpec Key Item))
    (r1 r2 : Nat)
    (e1 : newInstance h0 sp1 = (r1, h1))
    (e2 : newInstance h1 sp2 = (r2, h2)) :
    r1 ≠ r2 ∧
    h2.mem r1 = ⟨[], sp1.map freshEntry⟩ ∧
    h2.mem r2 = ⟨[], sp2.map freshEntry⟩ ∧
    (∀ i v, ((instInsert h2 r1 i v).1).mem r2 = h2.mem r2) ∧
    (∀ i v, ((instSet h2 r1 i v).1).mem r2 = h2.mem r2) ∧
    (∀ i, ((instDel h2 r1 i).1).mem r2 = h2.mem r2) ∧
    (∀ i v, ((instInsert h2 r2 i v).1).mem r1 = h2.mem r1) ∧
    (∀ i v, ((instSet h2 r2 i v).1).mem r1 = h2.mem r1) ∧
    (∀ i, ((instDel h2 r2 i).1).mem r1 = h2.mem r1) := by
  simp only [newInstance, Prod.mk.injEq] at e1 e2
  obtain ⟨hr1, hh1⟩ := e1
  obtain ⟨hr2, hh2⟩ := e2
  subst hr1
  subst hh1
  subst hr2
  subst hh2
  dsimp only at *
  refine ⟨by omega, ?_, ?_, ?_, ?_, ?_, ?_, ?_, ?_⟩
  · dsimp only
    rw [if_neg (by omega), if_pos rfl]
  · dsimp only
    rw [if_pos rfl]
  · intro i v
    simp only [instInsert, runMut]
    rw [if_neg (by omega)]
  · intro i v
    simp only [instSet, runMut]
    rw [if_neg (by omega)]
  · intro i
    simp only [instDel, runMut]
    rw [if_neg (by omega)]
  · intro i v
    simp only [instInsert, runMut]
    rw [if_neg (by omega)]
  · intro i v
    simp only [instSet, runMut]
    rw [if_neg (by omega)]
  · intro i
    simp only [instDel, runMut]
    rw [if_neg (by omega)]

/-- C9 witness: two concrete instances created one after the other get
distinct references, and an `insert` on the first leaves the second's
stored state untouched. -/
theorem c9_witness :
    (newInstance (⟨fun _ => ⟨[], []⟩, 0⟩ : Heap Nat Nat)
        [⟨fun n => some n, true⟩]).1 ≠
      (newInstance (newInstance (⟨fun _ => ⟨[], []⟩, 0⟩ : Heap Nat Nat)
        [⟨fun n => some n, true⟩]).2 [⟨fun m => some m, false⟩]).1 ∧
    ((instInsert
        (newInstance (newInstance (⟨fun _ => ⟨[], []⟩, 0⟩ : Heap Nat Nat)
          [⟨fun n => some n, true⟩]).2 [⟨fun m => some m, false⟩]).2
        (newInstance (⟨fun _ => ⟨[], []⟩, 0⟩ : Heap Nat Nat)
          [⟨fun n => some n, true⟩]).1 0 7).1).mem
      (newInstance (newInstance (⟨fun _ => ⟨[], []⟩, 0⟩ : Heap Nat Nat)
        [⟨fun n => some n, true⟩]).2 [⟨fun m => some m, false⟩]).1 =
    ((newInstance (newInstance (⟨fun _ => ⟨[], []⟩, 0⟩ : Heap Nat Nat)
        [⟨fun n => some n, true⟩]).2 [⟨fun m => some m, false⟩]).2).mem
      (newInstance (newInstance (⟨fun _ => ⟨[], []⟩, 0⟩ : Heap Nat Nat)
        [⟨fun n => some n, true⟩]).2 [⟨fun m => some m, false⟩]).1 := by
  have hthm := c9_instance_isolation
    (⟨fun _ => ⟨[], []⟩, 0⟩ : Heap Nat Nat)
    (newInstance (⟨fun _ => ⟨[], []⟩, 0⟩ : Heap Nat Nat)
      [⟨fun n => some n, true⟩]).2
    (newInstance (newInstance (⟨fun _ => ⟨[], []⟩, 0⟩ : Heap Nat Nat)
      [⟨fun n => some n, true⟩]).2 [⟨fun m => some m, false⟩]).2
    [⟨fun n => some n, true⟩] [⟨fun m => some m, false⟩]
    (newInstance (⟨fun _ => ⟨[], []⟩, 0⟩ : Heap Nat Nat)
      [⟨fun n => some n, true⟩]).1
    (newInstance (newInstance (⟨fun _ => ⟨[], []⟩, 0⟩ : Heap Nat Nat)
      [⟨fun n => some n, true⟩]).2 [⟨fun m => some m, false⟩]).1
    rfl rfl
  exact ⟨hthm.1, hthm.2.2.2.1 0 7⟩

end IndexedListModel
